import Mathlib

/-!
# go-generic-heap: a verification development

Shallow embedding of `heap.go` and `helpers.go` (package `genericheap`) together with the
parts of Go's standard `container/heap` package that `New`, `PushItem` and `PopItem` call
(`Init`, `Push`, `Pop` and the unexported loops `up` and `down`) and `cmp.Compare`.
`FloatHeap` is left out: `float64` is not modelled.

* Go `int` indices are `Int`; Go's `/` on `int` truncates toward zero and is `Int.tdiv`.
  Slice lengths stay far below `2^62`, so `2*i + 1` never wraps; the `j1 < 0` overflow guard
  of `down` is kept as written.
* A slice `[]T` is a `List T`; an index expression outside `0 ≤ i < len` raises the run-time
  panic `Fault.indexOutOfRange`.
* Every method has a pointer receiver, so every method is a computation `HeapM T α`: a function
  from the receiver state to a result (value or panic) and the receiver state afterwards.
  The state that a panic leaves behind is therefore part of the model.
* The two `for` loops of `container/heap` are recursions on a fuel counter; `up` and `down`
  start them with `len(h.data) + 1` units, and the theorems below show the loops finish.
* `container/heap` passes elements as `any`. A Lean type `T` stands for a Go element type
  with all its values; `GoType.isNil` tells which of them is the nil value of an interface
  type (none for `int`, `string` or a struct). `Any T` is a value of type `interface{}` as the
  assertion `x.(T)` sees it, and the assertion in `Push` panics with
  `Fault.interfaceConversion` on the nil `interface{}` and on a value of another type.
* The assertion in `PopItem` is applied to a value that `Pop` has just taken out of the
  storage. Slots are only ever filled by `Push`, after its own assertion has accepted the
  value, so on every storage the constructors and methods can build that second assertion
  accepts too (`afterOps_no_nil` below); `PopItem` hands the value of `heap.Pop` on as it is.
-/

namespace GenericHeap

/-! ## Data model -/

/-- Abnormal outcomes. `indexOutOfRange i n` is Go's run-time panic
`index out of range [i] with length n`; `interfaceConversion` is Go's run-time panic
`interface conversion: ...` of a failed type assertion; `outOfFuel` is not a Go outcome but the
loop bound of the model running out. -/
inductive Fault where
  | indexOutOfRange (index : Int) (length : Nat)
  | outOfFuel
  | interfaceConversion
  deriving DecidableEq, Repr

/-- The struct `Heap[T]` of `heap.go`: backing storage and comparison rule. -/
structure Heap (T : Type) where
  data : List T
  less : T → T → Bool

/-- A method call on a `*Heap[T]` receiver: result (or panic) and the receiver afterwards. -/
def HeapM (T α : Type) : Type := Heap T → Except Fault α × Heap T

instance instMonadHeapM {T : Type} : Monad (HeapM T) where
  pure a := fun h => (Except.ok a, h)
  bind m f := fun h =>
    match m h with
    | (Except.ok a, h1) => f a h1
    | (Except.error e, h1) => (Except.error e, h1)

variable {T : Type}

/-- Raise a fault; the receiver keeps the state it had. -/
def raise {α : Type} (e : Fault) : HeapM T α := fun h => (Except.error e, h)

/-- Read the field `h.data`. -/
def getData : HeapM T (List T) := fun h => (Except.ok h.data, h)

/-- Read the field `h.less`. -/
def getLess : HeapM T (T → T → Bool) := fun h => (Except.ok h.less, h)

/-- The assignment `h.data = d`. -/
def setData (d : List T) : HeapM T Unit := fun h => (Except.ok (), ⟨d, h.less⟩)

/-- Go builtin `len` on a slice. -/
def len (s : List T) : Int := (s.length : Int)

/-- Go index expression `s[i]`, with its bounds check. -/
def index (s : List T) (i : Int) : HeapM T T :=
  if 0 ≤ i then
    match s[i.toNat]? with
    | some x => pure x
    | none => raise (Fault.indexOutOfRange i s.length)
  else raise (Fault.indexOutOfRange i s.length)

/-- What the model knows about a Go element type `T`: which of its values is the nil
interface value. For an element type that is not an interface type no value is. -/
class GoType (T : Type) where
  isNil : T → Bool

/-- A Go value of type `interface{}`, as far as the assertion `x.(T)` tells values apart: the
nil interface value, a non-nil value that has (or, `T` an interface type, implements) type `T`,
or a non-nil value of some other type. -/
inductive Any (T : Type) where
  | nil : Any T
  | val (v : T) : Any T
  | other : Any T

/-- Conversion of a value of the element type to `interface{}`, as at the argument of
`heap.Push(h, item)`: the nil value of an interface type becomes the nil `interface{}`. -/
def toAny [GoType T] (item : T) : Any T :=
  if GoType.isNil item = true then Any.nil else Any.val item

/-- Go type assertion `x.(T)`: the value held by `x` when `x` is non-nil and of type `T`, the
run-time panic `interface conversion` otherwise. (`Any.val` of a nil value is not a Go value;
it is treated like the nil `interface{}`.) -/
def assertT [GoType T] (x : Any T) : HeapM T T :=
  match x with
  | Any.nil => raise Fault.interfaceConversion
  | Any.other => raise Fault.interfaceConversion
  | Any.val v => if GoType.isNil v = true then raise Fault.interfaceConversion else pure v

/-- The element type `int` is not an interface type. -/
instance instGoTypeInt : GoType Int := ⟨fun _ => false⟩

/-- An interface element type such as `any` or `error`, cut down to its nil value `none` and
non-nil values `some v`; its zero value is nil. -/
instance instGoTypeOption (α : Type) : GoType (Option α) := ⟨fun x => x.isNone⟩

/-- Go builtin `make([]T, n)`: `n` zero values. -/
def make [Inhabited T] (n : Int) : List T := List.replicate n.toNat default

/-- Go builtin `copy(dst, src)`: overwrites the first `min(len(dst), len(src))` slots of `dst`. -/
def copy (dst src : List T) : List T :=
  src.take (min dst.length src.length) ++ dst.drop (min dst.length src.length)

/-! ## `heap.go`: the `sort.Interface` / `heap.Interface` methods -/

/-- Go: `func (h *Heap[T]) Len() int { return len(h.data) }` -/
def Heap.Len : HeapM T Int := do
  let d ← getData
  pure (len d)

/-- Go: `func (h *Heap[T]) Less(i, j int) bool { return h.less(h.data[i], h.data[j]) }` -/
def Heap.Less (i j : Int) : HeapM T Bool := do
  let d ← getData
  let a ← index d i
  let b ← index d j
  let less ← getLess
  pure (less a b)

/-- Go: `func (h *Heap[T]) Swap(i, j int)` with body
`h.data[i], h.data[j] = h.data[j], h.data[i]`: the bounds of `h.data[i]` are checked first,
then those of `h.data[j]`, before anything is stored; so when both indices are out of range
the panic names `i`. Then slot `i` receives the old `h.data[j]` and slot `j` the old
`h.data[i]`. -/
def Heap.Swap (i j : Int) : HeapM T Unit := do
  let d ← getData
  let y ← index d i
  let x ← index d j
  setData ((d.set i.toNat x).set j.toNat y)

/-- Go: `func (h *Heap[T]) Push(x interface{})` with body `h.data = append(h.data, x.(T))`:
the assertion `x.(T)` is evaluated before the assignment, so a panic leaves `h.data` as it
was. -/
def Heap.Push [GoType T] (x : Any T) : HeapM T Unit := do
  let d ← getData
  let v ← assertT x
  setData (d ++ [v])

/-- Go: `func (h *Heap[T]) Pop() interface{}` with body
`old := h.data; n := len(old); x := old[n-1]; h.data = old[0 : n-1]; return x`. -/
def Heap.Pop : HeapM T T := do
  let old ← getData
  let n := len old
  let x ← index old (n - 1)
  setData (old.take (n - 1).toNat)
  pure x

/-! ## Go standard library `container/heap` -/

namespace heap

/-- The loop of `up(h, j)`:
`for { i := (j - 1) / 2; if i == j || !h.Less(j, i) { break }; h.Swap(i, j); j = i }` -/
def upLoop : Nat → Int → HeapM T Unit
  | 0, _ => raise Fault.outOfFuel
  | fuel + 1, j =>
    let i := (j - 1).tdiv 2
    if i = j then pure ()
    else do
      let lt ← Heap.Less j i
      if lt = false then pure ()
      else do
        Heap.Swap i j
        upLoop fuel i

/-- Go: `func up(h Interface, j int)` -/
def up (j : Int) : HeapM T Unit := fun h => upLoop (h.data.length + 1) j h

/-- The loop of `down(h, i0, n)`, `i` being the loop variable:
`for { j1 := 2*i + 1; if j1 >= n || j1 < 0 { break }; j := j1;`
`if j2 := j1 + 1; j2 < n && h.Less(j2, j1) { j = j2 }; if !h.Less(j, i) { break };`
`h.Swap(i, j); i = j }; return i > i0` -/
def downLoop (i0 n : Int) : Nat → Int → HeapM T Bool
  | 0, _ => raise Fault.outOfFuel
  | fuel + 1, i =>
    let j1 := 2 * i + 1
    if j1 ≥ n ∨ j1 < 0 then pure (decide (i > i0))
    else do
      let j2 := j1 + 1
      let right ← (if j2 < n then Heap.Less j2 j1 else pure false)
      let j := if right = true then j2 else j1
      let lt ← Heap.Less j i
      if lt = false then pure (decide (i > i0))
      else do
        Heap.Swap i j
        downLoop i0 n fuel j

/-- Go: `func down(h Interface, i0, n int) bool` -/
def down (i0 n : Int) : HeapM T Bool := fun h => downLoop i0 n (h.data.length + 1) i0 h

/-- The loop of `Init`: `for i := n/2 - 1; i >= 0; i-- { down(h, i, n) }`, counted by `i + 1`. -/
def initLoop (n : Int) : Nat → HeapM T Unit
  | 0 => pure ()
  | i + 1 => do
    let _ ← down (i : Int) n
    initLoop n i

/-- Go: `func Init(h Interface) { n := h.Len(); for i := n/2 - 1; i >= 0; i-- { down(h, i, n) } }` -/
def Init : HeapM T Unit := do
  let n ← Heap.Len
  initLoop n (n.tdiv 2).toNat

/-- Go: `func Push(h Interface, x any) { h.Push(x); up(h, h.Len()-1) }` -/
def Push [GoType T] (x : Any T) : HeapM T Unit := do
  Heap.Push x
  let n ← Heap.Len
  up (n - 1)

/-- Go: `func Pop(h Interface) any { n := h.Len() - 1; h.Swap(0, n); down(h, 0, n); return h.Pop() }` -/
def Pop : HeapM T T := do
  let m ← Heap.Len
  let n := m - 1
  Heap.Swap 0 n
  let _ ← down 0 n
  Heap.Pop

end heap

/-! ## `heap.go`: constructor and type-safe methods -/

/-- Go: `func New[T any](less func(a, b T) bool) *Heap[T]`: `h := &Heap[T]{less: less}`
(so `h.data` is the nil slice), `heap.Init(h)`, `return h`. -/
def New (less : T → T → Bool) : Except Fault (Heap T) :=
  match heap.Init ⟨[], less⟩ with
  | (Except.ok _, h) => Except.ok h
  | (Except.error e, _) => Except.error e

/-- Go: `func (h *Heap[T]) PushItem(item T) { heap.Push(h, item) }`; passing `item` as the
parameter `x any` converts it to `interface{}`. -/
def Heap.PushItem [GoType T] (item : T) : HeapM T Unit := heap.Push (toAny item)

/-- Go: `func (h *Heap[T]) PopItem() T { return heap.Pop(h).(T) }` -/
def Heap.PopItem : HeapM T T := heap.Pop

/-- Go: `func (h *Heap[T]) Peek() T`: the zero value of `T` (here `default`) on an empty heap,
`h.data[0]` otherwise. -/
def Heap.Peek [Inhabited T] : HeapM T T := do
  let d ← getData
  if len d = 0 then pure default
  else index d 0

/-- Go: `func (h *Heap[T]) IsEmpty() bool { return len(h.data) == 0 }` -/
def Heap.IsEmpty : HeapM T Bool := do
  let d ← getData
  pure (decide (len d = 0))

/-- Go: `func (h *Heap[T]) Size() int { return len(h.data) }` -/
def Heap.Size : HeapM T Int := do
  let d ← getData
  pure (len d)

/-- Go: `func (h *Heap[T]) Clear() { h.data = h.data[:0] }` -/
def Heap.Clear : HeapM T Unit := do
  let d ← getData
  setData (d.take 0)

/-- Go: `func (h *Heap[T]) ToSlice() []T`:
`result := make([]T, len(h.data)); copy(result, h.data); return result` -/
def Heap.ToSlice [Inhabited T] : HeapM T (List T) := do
  let d ← getData
  let result : List T := make (len d)
  pure (copy result d)

/-! ## `helpers.go` -/

/-- Rule of `IntHeap(true)`: `func(a, b int) bool { return a > b }` -/
def intMaxRule (a b : Int) : Bool := decide (a > b)

/-- Rule of `IntHeap(false)`: `func(a, b int) bool { return a < b }` -/
def intMinRule (a b : Int) : Bool := decide (a < b)

/-- Go: `func IntHeap(max bool) *Heap[int]`: `New[int]` with the rule `a > b` when `max`,
with the rule `a < b` otherwise. -/
def IntHeap (max : Bool) : Except Fault (Heap Int) :=
  if max = true then New intMaxRule
  else New intMinRule

/-! ## `examples/example.go`: the call sites the scenarios come from -/

/-- Go: `type PriceEntry struct { Commodity string; Price int }` -/
structure PriceEntry where
  Commodity : String
  Price : Int
  deriving DecidableEq, Repr

/-- Zero value of `PriceEntry`: every field zero. -/
instance instInhabitedPriceEntry : Inhabited PriceEntry := ⟨⟨"", 0⟩⟩

/-- A struct type is not an interface type. -/
instance instGoTypePriceEntry : GoType PriceEntry := ⟨fun _ => false⟩

/-- Rule of the custom struct heap: `func(a, b PriceEntry) bool { return a.Price > b.Price }` -/
def priceRule (a b : PriceEntry) : Bool := decide (a.Price > b.Price)

/-- Consecutive `h.PushItem(x)` calls, one per element, in list order. -/
def pushAll [GoType T] : List T → HeapM T Unit
  | [] => pure ()
  | x :: xs => do
    Heap.PushItem x
    pushAll xs

/-- The given number of consecutive `h.PopItem()` calls, results in call order. -/
def popN : Nat → HeapM T (List T)
  | 0 => pure []
  | n + 1 => do
    let x ← Heap.PopItem
    let ys ← popN n
    pure (x :: ys)

/-- Push every element of `xs`, pop `len(xs)` times, then ask `IsEmpty()`. -/
def pushThenPopAll [GoType T] (xs : List T) : HeapM T (List T × Bool) := do
  pushAll xs
  let ys ← popN xs.length
  let e ← Heap.IsEmpty
  pure (ys, e)

/-- Run a computation on the heap a constructor returned. -/
def onNew {α : Type} (c : Except Fault (Heap T)) (m : HeapM T α) : Except Fault α :=
  match c with
  | Except.ok h => (m h).1
  | Except.error e => Except.error e

/-- Lines 44-52 of `example.go`: custom struct heap, three pushes, `Peek()`. -/
def priceHeapPeek : Except Fault PriceEntry :=
  onNew (New priceRule) (do
    Heap.PushItem ⟨"Gold", 100⟩
    Heap.PushItem ⟨"Silver", 70⟩
    Heap.PushItem ⟨"Oil", 90⟩
    Heap.Peek)

/-- Lines 25-28 and 93-100 of `example.go`: `IntHeap(true)`, pushes of 100, 70, 90, then
`PopItem()` until empty and `IsEmpty()`. -/
def intHeapPopAll : Except Fault (List Int × Bool) :=
  onNew (IntHeap true) (pushThenPopAll [100, 70, 90])

/-! ## Specification vocabulary -/

/-- Strict weak ordering on a Boolean rule: irreflexive, transitive, and incomparability
(neither outranks the other) is transitive. -/
structure StrictWeakOrder (less : T → T → Bool) : Prop where
  irrefl : ∀ a, less a a = false
  trans : ∀ a b c, less a b = true → less b c = true → less a c = true
  incomp_trans : ∀ a b c, less a b = false ∧ less b a = false →
    less b c = false ∧ less c b = false → less a c = false ∧ less c a = false

/-- Heap property of the storage: for every index `i` with `1 ≤ i < Size`,
`not less(data[i], data[(i-1)/2])`. -/
def HeapProperty (h : Heap T) : Prop :=
  ∀ (i : Nat) (hi : i < h.data.length), 1 ≤ i → h.less h.data[i] h.data[(i - 1) / 2] = false

instance instDecidableHeapProperty (h : Heap T) : Decidable (HeapProperty h) := by
  unfold HeapProperty
  infer_instance

/-- The element in slot `c` (if any) does not outrank the element in slot `p` (if any). -/
def NoOutrank (less : T → T → Bool) (l : List T) (c p : Nat) : Prop :=
  ∀ x y, l[c]? = some x → l[p]? = some y → less x y = false

/-- Heap property restricted to the first `n` slots. -/
def HeapUpTo (less : T → T → Bool) (l : List T) (n : Nat) : Prop :=
  ∀ k, 1 ≤ k → k < n → NoOutrank less l k ((k - 1) / 2)

/-- Loop invariant of `up` at index `j`: the heap property holds at every index but `j`, and
the children of `j` do not outrank the parent of `j`. -/
def UpInv (less : T → T → Bool) (l : List T) (j : Nat) : Prop :=
  (∀ k, 1 ≤ k → k ≠ j → NoOutrank less l k ((k - 1) / 2)) ∧
  (∀ c, 1 ≤ c → (c - 1) / 2 = j → 1 ≤ j → NoOutrank less l c ((j - 1) / 2))

/-- Loop invariant of `down` at index `i` over the first `n` slots: the heap property holds at
every index that is not a child of `i`, and the children of `i` do not outrank the parent
of `i`. -/
def DownInv (less : T → T → Bool) (l : List T) (i n : Nat) : Prop :=
  (∀ k, 1 ≤ k → k < n → (k - 1) / 2 ≠ i → NoOutrank less l k ((k - 1) / 2)) ∧
  (∀ c, 1 ≤ c → c < n → (c - 1) / 2 = i → 1 ≤ i → NoOutrank less l c ((i - 1) / 2))

/-- Child `j` of `i` is the candidate `down` picks: no other child of `i` among the first `n`
slots outranks it. -/
def BestChild (less : T → T → Bool) (l : List T) (i j n : Nat) : Prop :=
  ∀ c, 1 ≤ c → c < n → (c - 1) / 2 = i → c ≠ j → NoOutrank less l c j

/-- One call of the public mutating API. -/
inductive Op (T : Type) where
  | push (x : T)
  | pop

/-- Perform one call, discarding what `PopItem` returns. -/
def applyOp [GoType T] : Op T → HeapM T Unit
  | Op.push x => Heap.PushItem x
  | Op.pop => do
    let _ ← Heap.PopItem
    pure ()

/-- Perform a sequence of calls in order; a panic ends the sequence. -/
def runOps [GoType T] : List (Op T) → HeapM T Unit
  | [] => pure ()
  | op :: ops => do
    applyOp op
    runOps ops

/-- Number of `PushItem` calls in a sequence. -/
def countPush : List (Op T) → Nat
  | [] => 0
  | Op.push _ :: ops => countPush ops + 1
  | Op.pop :: ops => countPush ops

/-- Number of `PopItem` calls in a sequence. -/
def countPop : List (Op T) → Nat
  | [] => 0
  | Op.push _ :: ops => countPop ops
  | Op.pop :: ops => countPop ops + 1

/-- Along the sequence, each `PopItem` is called on a heap whose `IsEmpty()` is false. -/
def PopsOnlyNonEmpty [GoType T] : List (Op T) → Heap T → Prop
  | [], _ => True
  | Op.push x :: ops, h => PopsOnlyNonEmpty ops (Heap.PushItem x h).2
  | Op.pop :: ops, h =>
    (Heap.IsEmpty h).1 = Except.ok false ∧ PopsOnlyNonEmpty ops (Heap.PopItem h).2

/-- One call of the public API whose result a caller can observe. -/
inductive Call (T : Type) where
  | pushItem (x : T)
  | popItem
  | peek
  | toSlice

/-- What a call hands back. -/
inductive Reply (T : Type) where
  | none
  | item (x : T)
  | items (xs : List T)

/-- Perform one observable call. -/
def call [Inhabited T] [GoType T] : Call T → HeapM T (Reply T)
  | Call.pushItem x => do
    Heap.PushItem x
    pure Reply.none
  | Call.popItem => do
    let x ← Heap.PopItem
    pure (Reply.item x)
  | Call.peek => do
    let x ← Heap.Peek
    pure (Reply.item x)
  | Call.toSlice => do
    let xs ← Heap.ToSlice
    pure (Reply.items xs)

/-- Outcome of every call of a sequence, each call starting from the state the previous one
left behind (also after a panic, as a caller that recovers would see it). -/
def observe [Inhabited T] [GoType T] : List (Call T) → Heap T → List (Except Fault (Reply T))
  | [], _ => []
  | c :: cs, h => (call c h).1 :: observe cs (call c h).2

/-- State after a sequence of calls, each call starting from the state the previous one left
behind (also after a panic, as a caller that recovers would see it). -/
def afterOps [GoType T] : List (Op T) → Heap T → Heap T
  | [], h => h
  | op :: ops, h => afterOps ops (applyOp op h).2

/-- A heap built from `New(less)` by some sequence of `PushItem` and `PopItem` calls. -/
def Reachable [GoType T] (less : T → T → Bool) (h : Heap T) : Prop :=
  ∃ (ops : List (Op T)) (h0 : Heap T), New less = Except.ok h0 ∧ afterOps ops h0 = h

/-! ## `helpers.go`: the other constructors -/

/-- Go `string`: an immutable sequence of bytes. The order `<` on it is the lexicographic
order of the byte sequences, which is how Go orders strings ("lexically byte-wise"). -/
abbrev GoString : Type := List (Fin 256)

/-- The bytes of a string literal (its UTF-8 encoding, as in a Go source file). -/
def goString (s : String) : GoString := s.toUTF8.toList.map (fun b => Fin.ofNat b.toNat)

/-- The element type `string` is not an interface type. -/
instance instGoTypeGoString : GoType GoString := ⟨fun _ => false⟩

/-- Rule of `StringHeap(true)`: `func(a, b string) bool { return a > b }` -/
def stringMaxRule (a b : GoString) : Bool := decide (a > b)

/-- Rule of `StringHeap(false)`: `func(a, b string) bool { return a < b }` -/
def stringMinRule (a b : GoString) : Bool := decide (a < b)

/-- Go: `func StringHeap(max bool) *Heap[string]`: `New[string]` with the rule `a > b` when
`max`, with the rule `a < b` otherwise. -/
def StringHeap (max : Bool) : Except Fault (Heap GoString) :=
  if max = true then New stringMaxRule
  else New stringMinRule

namespace cmp

/-- Go standard library, package `cmp`: `func isNaN[T Ordered](x T) bool { return x != x }` -/
def isNaN [DecidableEq T] (x : T) : Bool := decide (x ≠ x)

/-- Go standard library, package `cmp`: `func Compare[T Ordered](x, y T) int`:
`xNaN := isNaN(x); yNaN := isNaN(y); if xNaN { if yNaN { return 0 }; return -1 };`
`if yNaN { return +1 }; if x < y { return -1 }; if x > y { return +1 }; return 0`. -/
def Compare [LT T] [DecidableRel (fun a b : T => a < b)] [DecidableEq T] (x y : T) : Int :=
  let xNaN := isNaN x
  let yNaN := isNaN y
  if xNaN = true then
    if yNaN = true then 0 else -1
  else if yNaN = true then 1
  else if x < y then -1
  else if x > y then 1
  else 0

end cmp

/-- Go: `func ComparableHeap[T cmp.Ordered](max bool) *Heap[T]`: `New[T]` with the rule
`cmp.Compare(a, b) > 0` when `max`, with the rule `cmp.Compare(a, b) < 0` otherwise. -/
def ComparableHeap [LT T] [DecidableRel (fun a b : T => a < b)] [DecidableEq T] (max : Bool) :
    Except Fault (Heap T) :=
  if max = true then New (fun a b => decide (cmp.Compare a b > 0))
  else New (fun a b => decide (cmp.Compare a b < 0))

/-- Go: `func PriorityHeap[T any](priority func(a, b T) bool) *Heap[T] { return New[T](priority) }` -/
def PriorityHeap (priority : T → T → Bool) : Except Fault (Heap T) := New priority

/-! ## More call sites of the example and test programs -/

/-- Push every element of `xs`, then ask `Peek()` and `Size()`. -/
def pushThenPeek [Inhabited T] [GoType T] (xs : List T) : HeapM T (T × Int) := do
  pushAll xs
  let top ← Heap.Peek
  let n ← Heap.Size
  pure (top, n)

/-- Lines 10-16 of `test.go`: `IntHeap(true)`, pushes of 100, 70, 90, `Peek()`, `Size()`. -/
def intMaxHeapPeekSize : Except Fault (Int × Int) :=
  onNew (IntHeap true) (pushThenPeek [100, 70, 90])

/-- Lines 35-40 of `example.go`: `IntHeap(false)`, pushes of 100, 70, 90, `Peek()`. -/
def intMinHeapPeek : Except Fault Int :=
  onNew (IntHeap false) (do
    Heap.PushItem 100
    Heap.PushItem 70
    Heap.PushItem 90
    Heap.Peek)

/-- Lines 72-77 of `example.go`: `StringHeap(true)`, pushes of "apple", "banana", "cherry",
`Peek()`. -/
def stringHeapPeek : Except Fault GoString :=
  onNew (StringHeap true) (do
    Heap.PushItem (goString "apple")
    Heap.PushItem (goString "banana")
    Heap.PushItem (goString "cherry")
    Heap.Peek)

/-- The exported low-level pair called back to back: `h.Push(x)` and then `h.Pop()`. -/
def pushThenPop [GoType T] (x : Any T) : HeapM T T := do
  Heap.Push x
  Heap.Pop

/-- Rule under which all elements are tied: `func(a, b T) bool { return false }` -/
def tiedRule (_ _ : T) : Bool := false

/-! ## Slices in memory

The list model above treats a slice as its sequence of elements. Whether two slices share a
backing array is invisible there, so `ToSlice` is given a second reading on explicit memory. -/

/-- Memory holding the backing arrays of slices; array number `a` is `arrays[a]`. -/
structure Mem (T : Type) where
  arrays : List (List T)

/-- A slice header: which backing array, and how many of its leading elements are in view. -/
structure Slice where
  array : Nat
  len : Nat

/-- The elements a slice has in view. -/
def Mem.read (m : Mem T) (s : Slice) : List T := (m.arrays.getD s.array []).take s.len

/-- Go builtin `make([]T, n)` on memory: a new backing array of `n` zero values, distinct
from every array already there, and a slice over all of it. -/
def Mem.make [Inhabited T] (m : Mem T) (n : Nat) : Slice × Mem T :=
  (⟨m.arrays.length, n⟩, ⟨m.arrays ++ [List.replicate n default]⟩)

/-- Go builtin `copy(dst, src)` on memory: the leading elements of the array behind `dst` are
overwritten by those of `src`, the rest of that array stays. -/
def Mem.copy (m : Mem T) (dst src : Slice) : Mem T :=
  ⟨m.arrays.set dst.array
    (GenericHeap.copy ((m.arrays.getD dst.array []).take dst.len) (m.read src)
      ++ (m.arrays.getD dst.array []).drop dst.len)⟩

/-- Go assignment `s[i] = v` on memory; out of range it panics and stores nothing. -/
def Mem.store (m : Mem T) (s : Slice) (i : Nat) (v : T) : Mem T :=
  if i < s.len then ⟨m.arrays.set s.array ((m.arrays.getD s.array []).set i v)⟩ else m

/-- Go: the body of `ToSlice` on memory, `data` being the slice header in `h.data`:
`result := make([]T, len(h.data)); copy(result, h.data); return result`. -/
def ToSliceMem [Inhabited T] (m : Mem T) (data : Slice) : Slice × Mem T :=
  let r := m.make data.len
  (r.1, r.2.copy r.1 data)

/-- The heap whose field `data` is the slice `data` of memory `m`, in the list model. -/
def heapAt (m : Mem T) (data : Slice) (less : T → T → Bool) : Heap T := ⟨m.read data, less⟩

/-! ## Running the monad -/

theorem run_pure {α : Type} (a : α) (h : Heap T) : (pure a : HeapM T α) h = (Except.ok a, h) := rfl

theorem run_bind {α β : Type} (m : HeapM T α) (f : α → HeapM T β) (h : Heap T) :
    (m >>= f) h = match m h with
      | (Except.ok a, h1) => f a h1
      | (Except.error e, h1) => (Except.error e, h1) := rfl

theorem bind_ok {α β : Type} {m : HeapM T α} {f : α → HeapM T β} {h h1 : Heap T} {a : α}
    (hm : m h = (Except.ok a, h1)) : (m >>= f) h = f a h1 := by
  rw [run_bind, hm]

theorem bind_error {α β : Type} {m : HeapM T α} {f : α → HeapM T β} {h h1 : Heap T} {e : Fault}
    (hm : m h = (Except.error e, h1)) : (m >>= f) h = (Except.error e, h1) := by
  rw [run_bind, hm]

/-! ## In-range reads, comparisons and swaps -/

theorem index_ok {l : List T} {i : Nat} {a : T} (hi : l[i]? = some a) (h : Heap T) :
    index l (i : Int) h = (Except.ok a, h) := by
  simp [index, hi, run_pure]

theorem Less_ok {l : List T} {less : T → T → Bool} {i j : Nat} {a b : T}
    (hi : l[i]? = some a) (hj : l[j]? = some b) :
    Heap.Less (i : Int) (j : Int) ⟨l, less⟩ = (Except.ok (less a b), ⟨l, less⟩) := by
  simp [Heap.Less, run_bind, getData, getLess, index_ok hi, index_ok hj, run_pure]

theorem Swap_ok {l : List T} {less : T → T → Bool} {i j : Nat} {a b : T}
    (hi : l[i]? = some a) (hj : l[j]? = some b) :
    Heap.Swap (i : Int) (j : Int) ⟨l, less⟩ = (Except.ok (), ⟨(l.set i b).set j a, less⟩) := by
  simp [Heap.Swap, run_bind, getData, setData, index_ok hi, index_ok hj]

/-- Go's `(j - 1) / 2` on a non-negative `int` is the parent index, and is 0 for `j = 0`. -/
theorem parent_cast (j : Nat) : ((j : Int) - 1).tdiv 2 = (((j - 1) / 2 : Nat) : Int) := by
  cases j with
  | zero => rfl
  | succ n =>
    have : ((n + 1 : Nat) : Int) - 1 = (n : Int) := by push_cast; ring
    rw [this]
    simp [Int.tdiv]

/-! ## Swapping two slots -/

theorem cons_set_perm (x b : T) : ∀ (t : List T) (j : Nat), t[j]? = some b →
    (b :: t.set j x).Perm (x :: t)
  | [], _, h => by simp at h
  | y :: s, 0, h => by
    simp at h
    subst h
    simpa using List.Perm.swap x y s
  | y :: s, j + 1, h => by
    simp at h
    have ih := cons_set_perm x b s j h
    simp only [List.set_cons_succ]
    exact ((List.Perm.swap y b _).trans (ih.cons y)).trans (List.Perm.swap x y s)

/-- Storing the element of slot `j` in slot `i` and the element of slot `i` in slot `j`
rearranges the list. -/
theorem swap_perm {a b : T} : ∀ (l : List T) (i j : Nat), l[i]? = some a → l[j]? = some b →
    ((l.set i b).set j a).Perm l
  | [], _, _, h, _ => by simp at h
  | x :: t, 0, 0, hi, hj => by
    simp at hi hj
    subst hi
    simp
  | x :: t, 0, j + 1, hi, hj => by
    simp at hi hj
    subst hi
    simpa using cons_set_perm _ _ t j hj
  | x :: t, i + 1, 0, hi, hj => by
    simp at hi hj
    subst hj
    simpa using cons_set_perm _ _ t i hi
  | x :: t, i + 1, j + 1, hi, hj => by
    simp at hi hj
    simpa using swap_perm t i j hi hj

/-- Slot by slot content after a swap. -/
theorem swap_get {a b : T} {l : List T} {i j : Nat} (hi : l[i]? = some a) (hj : l[j]? = some b)
    (k : Nat) :
    ((l.set i b).set j a)[k]? = if k = j then some a else if k = i then some b else l[k]? := by
  have hi1 : i < l.length := (List.getElem?_eq_some.1 hi).1
  have hj1 : j < l.length := (List.getElem?_eq_some.1 hj).1
  simp only [List.getElem?_set, List.length_set]
  by_cases h1 : k = j
  · subst h1; simp [hj1]
  · by_cases h2 : k = i
    · subst h2; simp [hi1, h1, Ne.symm h1]
    · simp [h1, h2, Ne.symm h1, Ne.symm h2]
/-! ## Consequences of a strict weak ordering -/

theorem StrictWeakOrder.asymm {less : T → T → Bool} (hs : StrictWeakOrder less) {a b : T}
    (hab : less a b = true) : less b a = false := by
  by_contra hba
  have h1 := hs.trans a b a hab (by simpa using hba)
  rw [hs.irrefl a] at h1
  exact Bool.false_ne_true h1

theorem StrictWeakOrder.negTrans {less : T → T → Bool} (hs : StrictWeakOrder less) {a b c : T}
    (hab : less a b = false) (hbc : less b c = false) : less a c = false := by
  by_contra hac
  have hac1 : less a c = true := by simpa using hac
  have hba : less b a = false := by
    by_contra hba
    have := hs.trans b a c (by simpa using hba) hac1
    rw [hbc] at this
    exact Bool.false_ne_true this
  have hcb : less c b = false := by
    by_contra hcb
    have := hs.trans a c b hac1 (by simpa using hcb)
    rw [hab] at this
    exact Bool.false_ne_true this
  exact hac (hs.incomp_trans a b c ⟨hab, hba⟩ ⟨hbc, hcb⟩).1

theorem StrictWeakOrder.notLess_of_less {less : T → T → Bool} (hs : StrictWeakOrder less)
    {x a b : T} (hxb : less x b = false) (hab : less a b = true) : less x a = false := by
  by_contra hxa
  have := hs.trans x a b (by simpa using hxa) hab
  rw [hxb] at this
  exact Bool.false_ne_true this

/-! ## The `up` loop -/

/-- One swap of `up` moves the invariant from `j` to its parent. -/
theorem upInv_step {less : T → T → Bool} (hs : StrictWeakOrder less) {l l1 : List T} {j : Nat}
    {a b : T} (hj : 1 ≤ j) (ha : l[j]? = some a) (hb : l[(j - 1) / 2]? = some b)
    (hlt : less a b = true)
    (hget : ∀ k, l1[k]? = if k = j then some b else if k = (j - 1) / 2 then some a else l[k]?)
    (hinv : UpInv less l j) : UpInv less l1 ((j - 1) / 2) := by
  obtain ⟨H1, H2⟩ := hinv
  have hpj : (j - 1) / 2 ≠ j := by omega
  constructor
  · intro k hk hkp x y hx hy
    rw [hget] at hx hy
    by_cases hkj : k = j
    · subst hkj
      simp only [if_true, if_neg hpj] at hx hy
      simp at hx hy
      subst hx; subst hy
      exact hs.asymm hlt
    · rw [if_neg hkj, if_neg hkp] at hx
      by_cases hpk : (k - 1) / 2 = j
      · rw [if_pos hpk] at hy
        simp at hy; subst hy
        exact H2 k hk hpk hj x _ hx hb
      · rw [if_neg hpk] at hy
        by_cases hpk2 : (k - 1) / 2 = (j - 1) / 2
        · rw [if_pos hpk2] at hy
          simp at hy; subst hy
          have h1 := H1 k hk hkj x b hx (by rw [hpk2]; exact hb)
          exact hs.notLess_of_less h1 hlt
        · rw [if_neg hpk2] at hy
          exact H1 k hk hkj x y hx hy
  · intro c hc hcp hp x y hx hy
    rw [hget] at hx hy
    have e1 : ((j - 1) / 2 - 1) / 2 ≠ j := by omega
    have e2 : ((j - 1) / 2 - 1) / 2 ≠ (j - 1) / 2 := by omega
    rw [if_neg e1, if_neg e2] at hy
    have hby := H1 ((j - 1) / 2) hp hpj b y hb hy
    by_cases hcj : c = j
    · rw [if_pos hcj] at hx
      simp at hx; subst hx
      exact hby
    · have hcp2 : c ≠ (j - 1) / 2 := by omega
      rw [if_neg hcj, if_neg hcp2] at hx
      have hxb := H1 c hc hcj x b hx (by rw [hcp]; exact hb)
      exact hs.negTrans hxb hby

/-- The `up` loop started at an in-range index with fuel above that index finishes without
panic, for any rule; it rearranges the storage, and under a strict weak ordering it turns the
loop invariant into the heap property. -/
theorem upLoop_spec (less : T → T → Bool) : ∀ (fuel : Nat) (l : List T) (j : Nat),
    j < l.length → j < fuel →
    ∃ l1, heap.upLoop fuel (j : Int) ⟨l, less⟩ = (Except.ok (), ⟨l1, less⟩) ∧ l1.Perm l ∧
      (StrictWeakOrder less → UpInv less l j → HeapUpTo less l1 l1.length) := by
  intro fuel
  induction fuel with
  | zero => intro l j _ h; omega
  | succ fuel ih =>
    intro l j hjl hjf
    rw [heap.upLoop]
    simp only [parent_cast]
    by_cases hj0 : j = 0
    · subst hj0
      refine ⟨l, ?_, List.Perm.refl _, ?_⟩
      · simp [run_pure]
      · intro _ hinv k hk _
        exact hinv.1 k hk (by omega)
    · have hpj : (j - 1) / 2 ≠ j := by omega
      have hpc : (((j - 1) / 2 : Nat) : Int) ≠ (j : Int) := by exact_mod_cast hpj
      rw [if_neg hpc]
      have hpl : (j - 1) / 2 < l.length := by omega
      have ha : l[j]? = some l[j] := List.getElem?_eq_getElem hjl
      have hb : l[(j - 1) / 2]? = some l[(j - 1) / 2] := List.getElem?_eq_getElem hpl
      rw [bind_ok (Less_ok ha hb)]
      by_cases hlt : less l[j] l[(j - 1) / 2] = false
      · rw [if_pos hlt]
        refine ⟨l, rfl, List.Perm.refl _, ?_⟩
        intro _ hinv k hk _
        by_cases hkj : k = j
        · subst hkj
          intro x y hx hy
          rw [ha] at hx; rw [hb] at hy
          simp at hx hy
          subst hx; subst hy
          exact hlt
        · exact hinv.1 k hk hkj
      · rw [if_neg hlt, bind_ok (Swap_ok hb ha)]
        have hlt1 : less l[j] l[(j - 1) / 2] = true := by simpa using hlt
        obtain ⟨l2, hrun, hperm, hheap⟩ := ih ((l.set ((j - 1) / 2) l[j]).set j l[(j - 1) / 2])
          ((j - 1) / 2) (by simpa using hpl) (by omega)
        refine ⟨l2, hrun, hperm.trans (swap_perm l _ _ hb ha), ?_⟩
        intro hs hinv
        refine hheap hs (upInv_step hs (by omega) ha hb hlt1 ?_ hinv)
        intro k
        rw [swap_get hb ha]
/-! ## The `down` loop -/

theorem downInv_leaf {less : T → T → Bool} {l : List T} {i n : Nat} (hleaf : n ≤ 2 * i + 1)
    (hinv : DownInv less l i n) : HeapUpTo less l n := by
  intro k hk hkn
  exact hinv.1 k hk hkn (by omega)

theorem downInv_done {less : T → T → Bool} (hs : StrictWeakOrder less) {l : List T}
    {i j n : Nat} {a b : T} (hj : 1 ≤ j) (hji : (j - 1) / 2 = i)
    (ha : l[j]? = some a) (hb : l[i]? = some b) (hlt : less a b = false)
    (hbest : BestChild less l i j n) (hinv : DownInv less l i n) : HeapUpTo less l n := by
  intro k hk hkn
  by_cases hki : (k - 1) / 2 = i
  · rw [hki]
    by_cases hkj : k = j
    · subst hkj
      intro x y hx hy
      rw [ha] at hx; rw [hb] at hy
      simp at hx hy
      subst hx; subst hy
      exact hlt
    · intro x y hx hy
      rw [hb] at hy
      simp at hy; subst hy
      exact hs.negTrans (hbest k hk hkn hki hkj x a hx ha) hlt
  · exact hinv.1 k hk hkn hki

/-- One swap of `down` moves the invariant from `i` to the chosen child `j`. -/
theorem downInv_step {less : T → T → Bool} (hs : StrictWeakOrder less) {l l1 : List T}
    {i j n : Nat} {a b : T} (hj : 1 ≤ j) (hjn : j < n) (hji : (j - 1) / 2 = i)
    (ha : l[j]? = some a) (hb : l[i]? = some b) (hlt : less a b = true)
    (hget : ∀ k, l1[k]? = if k = j then some b else if k = i then some a else l[k]?)
    (hbest : BestChild less l i j n) (hinv : DownInv less l i n) : DownInv less l1 j n := by
  obtain ⟨H1, H2⟩ := hinv
  have hij : i ≠ j := by omega
  constructor
  · intro k hk hkn hkp x y hx hy
    rw [hget] at hx hy
    by_cases hkj : k = j
    · subst hkj
      rw [hji, if_neg hij, if_pos rfl] at hy
      rw [if_pos rfl] at hx
      simp at hx hy
      subst hx; subst hy
      exact hs.asymm hlt
    · rw [if_neg hkj] at hx
      rw [if_neg hkp] at hy
      by_cases hki : k = i
      · subst hki
        have hpk : (k - 1) / 2 ≠ k := by omega
        rw [if_pos rfl] at hx
        rw [if_neg hpk] at hy
        simp at hx; subst hx
        exact H2 j hj hjn hji hk a y ha hy
      · rw [if_neg hki] at hx
        by_cases hpi : (k - 1) / 2 = i
        · rw [if_pos hpi] at hy
          simp at hy; subst hy
          exact hbest k hk hkn hpi hkj x a hx ha
        · rw [if_neg hpi] at hy
          exact H1 k hk hkn hpi x y hx hy
  · intro c hc hcn hcp _ x y hx hy
    rw [hget] at hx hy
    have hcj : c ≠ j := by omega
    have hci : c ≠ i := by omega
    have hpj : (j - 1) / 2 ≠ j := by omega
    rw [if_neg hcj, if_neg hci] at hx
    rw [hji, if_neg hij, if_pos rfl] at hy
    simp at hy; subst hy
    exact H1 c hc hcn (by omega) x a hx (by rw [hcp]; exact ha)
/-- The `down` loop over the first `n` slots finishes without panic, for any rule, given fuel
above `n - i`; it rearranges the storage, leaves the slots from `n` on untouched, and under a
strict weak ordering it turns the loop invariant into the heap property of the first `n`
slots. -/
theorem downLoop_spec (less : T → T → Bool) (i0 : Int) (n : Nat) :
    ∀ (fuel : Nat) (l : List T) (i : Nat), n ≤ l.length → 0 < fuel → n < fuel + i →
    ∃ l1 r, heap.downLoop i0 (n : Int) fuel (i : Int) ⟨l, less⟩ = (Except.ok r, ⟨l1, less⟩) ∧
      l1.Perm l ∧ (∀ k, n ≤ k → l1[k]? = l[k]?) ∧
      (StrictWeakOrder less → DownInv less l i n → HeapUpTo less l1 n) := by
  intro fuel
  induction fuel with
  | zero => intro l i _ h; omega
  | succ fuel ih =>
    intro l i hnl _ hfuel
    rw [heap.downLoop]
    have e1 : 2 * (i : Int) + 1 = ((2 * i + 1 : Nat) : Int) := by push_cast; ring
    have e2 : ((2 * i + 1 : Nat) : Int) + 1 = ((2 * i + 2 : Nat) : Int) := by push_cast; ring
    simp only [e1, e2]
    by_cases hleaf : n ≤ 2 * i + 1
    · have hc : ((2 * i + 1 : Nat) : Int) ≥ (n : Int) ∨ ((2 * i + 1 : Nat) : Int) < 0 :=
        Or.inl (by exact_mod_cast hleaf)
      rw [if_pos hc]
      exact ⟨l, _, rfl, List.Perm.refl _, fun _ _ => rfl, fun _ hinv => downInv_leaf hleaf hinv⟩
    · have hc : ¬ (((2 * i + 1 : Nat) : Int) ≥ (n : Int) ∨ ((2 * i + 1 : Nat) : Int) < 0) := by
        omega
      rw [if_neg hc]
      have hil : i < l.length := by omega
      have hb : l[i]? = some l[i] := List.getElem?_eq_getElem hil
      have key : ∀ (j : Nat), 1 ≤ j → j < n → (j - 1) / 2 = i →
          (StrictWeakOrder less → BestChild less l i j n) →
          ∃ l1 r, (Heap.Less (j : Int) (i : Int) >>= fun lt =>
              if lt = false then pure (decide ((i : Int) > i0))
              else Heap.Swap (i : Int) (j : Int) >>= fun _ =>
                heap.downLoop i0 (n : Int) fuel (j : Int)) ⟨l, less⟩
              = (Except.ok r, ⟨l1, less⟩) ∧
            l1.Perm l ∧ (∀ k, n ≤ k → l1[k]? = l[k]?) ∧
            (StrictWeakOrder less → DownInv less l i n → HeapUpTo less l1 n) := by
        intro j hj hjn hji hbest
        have hjl : j < l.length := by omega
        have ha : l[j]? = some l[j] := List.getElem?_eq_getElem hjl
        rw [bind_ok (Less_ok ha hb)]
        by_cases hlt : less l[j] l[i] = false
        · rw [if_pos hlt]
          exact ⟨l, _, rfl, List.Perm.refl _, fun _ _ => rfl,
            fun hs hinv => downInv_done hs hj hji ha hb hlt (hbest hs) hinv⟩
        · rw [if_neg hlt, bind_ok (Swap_ok hb ha)]
          have hlt1 : less l[j] l[i] = true := by simpa using hlt
          obtain ⟨l2, r, hrun, hperm, hfix, hheap⟩ := ih ((l.set i l[j]).set j l[i]) j
            (by simpa using hnl) (by omega) (by omega)
          refine ⟨l2, r, hrun, hperm.trans (swap_perm l _ _ hb ha), ?_, ?_⟩
          · intro k hk
            rw [hfix k hk, swap_get hb ha, if_neg (by omega), if_neg (by omega)]
          · intro hs hinv
            exact hheap hs (downInv_step hs hj hjn hji ha hb hlt1
              (fun k => swap_get hb ha k) (hbest hs) hinv)
      have h1l : 2 * i + 1 < l.length := by omega
      have hx1 : l[2 * i + 1]? = some l[2 * i + 1] := List.getElem?_eq_getElem h1l
      by_cases h2 : 2 * i + 2 < n
      · have hc2 : ((2 * i + 2 : Nat) : Int) < (n : Int) := by exact_mod_cast h2
        have h2l : 2 * i + 2 < l.length := by omega
        have hx2 : l[2 * i + 2]? = some l[2 * i + 2] := List.getElem?_eq_getElem h2l
        rw [if_pos hc2, bind_ok (Less_ok hx2 hx1)]
        by_cases hr : less l[2 * i + 2] l[2 * i + 1] = true
        · simp only [hr, if_true]
          refine key (2 * i + 2) (by omega) h2 (by omega) ?_
          intro hs c hc1 hcn hci hcj x y hx hy
          have hc : c = 2 * i + 1 := by omega
          subst hc
          rw [hx1] at hx; rw [hx2] at hy
          simp at hx hy
          subst hx; subst hy
          exact hs.asymm hr
        · have hr1 : less l[2 * i + 2] l[2 * i + 1] = false := by simpa using hr
          simp only [hr1, Bool.false_eq_true, if_false]
          refine key (2 * i + 1) (by omega) (by omega) (by omega) ?_
          intro hs c hc1 hcn hci hcj x y hx hy
          have hc : c = 2 * i + 2 := by omega
          subst hc
          rw [hx2] at hx; rw [hx1] at hy
          simp at hx hy
          subst hx; subst hy
          exact hr1
      · have hc2 : ¬ ((2 * i + 2 : Nat) : Int) < (n : Int) := by omega
        rw [if_neg hc2, bind_ok (run_pure false _)]
        simp only [Bool.false_eq_true, if_false]
        refine key (2 * i + 1) (by omega) (by omega) (by omega) ?_
        intro hs c hc1 hcn hci hcj
        omega
/-! ## `heap.Push` and `heap.Pop` -/

theorem heapProperty_iff (h : Heap T) :
    HeapProperty h ↔ HeapUpTo h.less h.data h.data.length := by
  constructor
  · intro hp k hk hkn x y hx hy
    have hpl : (k - 1) / 2 < h.data.length := by omega
    rw [List.getElem?_eq_getElem hkn] at hx
    rw [List.getElem?_eq_getElem hpl] at hy
    simp at hx hy
    subst hx; subst hy
    exact hp k hkn hk
  · intro hu i hi h1
    have hpl : (i - 1) / 2 < h.data.length := by omega
    exact hu i h1 hi _ _ (List.getElem?_eq_getElem hi) (List.getElem?_eq_getElem hpl)

/-- The assertion `x.(T)` accepts a value of `T` that is not the nil interface value. -/
theorem assertT_toAny [GoType T] {x : T} (hx : GoType.isNil x = false) (h : Heap T) :
    assertT (toAny x) h = (Except.ok x, h) := by
  simp [assertT, toAny, hx, run_pure]

/-- The assertion `x.(T)` panics on the nil interface value and changes nothing. -/
theorem assertT_toAny_nil [GoType T] {x : T} (hx : GoType.isNil x = true) (h : Heap T) :
    assertT (toAny x) h = (Except.error Fault.interfaceConversion, h) := by
  simp [assertT, toAny, hx, raise]

/-- Go's `heap.Push` of the nil value of an interface element type: the assertion in the
exported `Push` panics before anything is stored. -/
theorem push_nil [GoType T] (h : Heap T) (x : T) (hx : GoType.isNil x = true) :
    heap.Push (toAny x) h = (Except.error Fault.interfaceConversion, h) := by
  simp only [heap.Push, Heap.Push, run_bind, getData, assertT_toAny_nil hx]

/-- Go's `heap.Push` of a value that is not nil, on any storage and rule: no panic, the storage
is rearranged with `x` added, and the heap property is kept under a strict weak ordering. -/
theorem push_spec [GoType T] (less : T → T → Bool) (l : List T) (x : T)
    (hx : GoType.isNil x = false) :
    ∃ l1, heap.Push (toAny x) ⟨l, less⟩ = (Except.ok (), ⟨l1, less⟩) ∧ l1.Perm (l ++ [x]) ∧
      (StrictWeakOrder less → HeapUpTo less l l.length → HeapUpTo less l1 l1.length) := by
  have hcast : len (l ++ [x]) - 1 = ((l.length : Nat) : Int) := by simp [len]
  obtain ⟨l1, hrun, hperm, hheap⟩ := upLoop_spec less ((l ++ [x]).length + 1) (l ++ [x]) l.length
    (by simp) (by simp; omega)
  refine ⟨l1, ?_, hperm, ?_⟩
  · simp only [heap.Push, Heap.Push, Heap.Len, run_bind, getData, assertT_toAny hx, setData,
      run_pure, heap.up, hcast]
    exact hrun
  · intro hs hu
    refine hheap hs ⟨?_, ?_⟩
    · intro k hk hkj a b ha hb
      have hkl : k < (l ++ [x]).length := (List.getElem?_eq_some.1 ha).1
      have hkl1 : k < l.length := by simp at hkl; omega
      rw [List.getElem?_append_left hkl1] at ha
      rw [List.getElem?_append_left (by omega)] at hb
      exact hu k hk hkl1 a b ha hb
    · intro c hc hcp _ a b ha _
      have hcl : c < (l ++ [x]).length := (List.getElem?_eq_some.1 ha).1
      simp at hcl
      omega

/-- Go's `heap.Pop` on non-empty storage, for any rule: no panic, the old root is returned,
the rest of the storage is kept (rearranged), and the heap property is kept under a strict
weak ordering. -/
theorem pop_spec (less : T → T → Bool) (l : List T) (r : T) (hr : l[0]? = some r) :
    ∃ l3, heap.Pop ⟨l, less⟩ = (Except.ok r, ⟨l3, less⟩) ∧ (l3 ++ [r]).Perm l ∧
      l3.length + 1 = l.length ∧
      (StrictWeakOrder less → HeapUpTo less l l.length → HeapUpTo less l3 l3.length) := by
  have hl : 0 < l.length := (List.getElem?_eq_some.1 hr).1
  have hcast : len l - 1 = ((l.length - 1 : Nat) : Int) := by simp [len]; omega
  have hz : l[l.length - 1]? = some l[l.length - 1] := List.getElem?_eq_getElem (by omega)
  obtain ⟨l2, b, hrun, hperm, hfix, hheap⟩ := downLoop_spec less 0 (l.length - 1)
    (l.length + 1) ((l.set 0 l[l.length - 1]).set (l.length - 1) r) 0
    (by simp) (by omega) (by omega)
  have hlen2 : l2.length = l.length := by simpa using hperm.length_eq
  have hlast : l2[l.length - 1]? = some r := by
    rw [hfix _ (le_refl _), swap_get hr hz, if_pos rfl]
  have hcast2 : len l2 - 1 = ((l.length - 1 : Nat) : Int) := by simp [len, hlen2]; omega
  have htake : l2.take (l.length - 1) ++ [r] = l2 := by
    have h1 := List.take_append_drop (l.length - 1) l2
    have h2 : l2.drop (l.length - 1) = [r] := by
      apply List.ext_getElem?
      intro k
      rw [List.getElem?_drop]
      cases k with
      | zero => simpa using hlast
      | succ k =>
        simp
        omega
    rw [h2] at h1
    exact h1
  refine ⟨l2.take (l.length - 1), ?_, ?_, ?_, ?_⟩
  · have hsw : Heap.Swap ((0 : Nat) : Int) ((l.length - 1 : Nat) : Int) ⟨l, less⟩ = _ :=
      Swap_ok hr hz
    simp only [Nat.cast_zero] at hsw hrun
    simp only [heap.Pop, Heap.Len, run_bind, getData, run_pure, hcast, hsw, heap.down,
      List.length_set, hrun, Heap.Pop, hcast2, index_ok hlast, setData, Int.toNat_ofNat]
  · rw [htake]
    exact hperm.trans (swap_perm l _ _ hr hz)
  · simp [hlen2]; omega
  · intro hs hu
    have hlt : (l2.take (l.length - 1)).length = l.length - 1 := by simp [hlen2]
    rw [hlt]
    have h2 := hheap hs ⟨?_, ?_⟩
    · intro k hk hkn a b ha hb
      rw [List.getElem?_take, if_pos hkn] at ha
      rw [List.getElem?_take, if_pos (by omega)] at hb
      exact h2 k hk hkn a b ha hb
    · intro k hk hkn hkp a b ha hb
      rw [swap_get hr hz, if_neg (by omega), if_neg (by omega)] at ha hb
      exact hu k hk (by omega) a b ha hb
    · intro c _ _ _ h0
      omega

/-- Under the heap property and a strict weak ordering no stored element outranks the root. -/
theorem root_extreme {less : T → T → Bool} (hs : StrictWeakOrder less) {l : List T}
    (hu : HeapUpTo less l l.length) : ∀ k, NoOutrank less l k 0 := by
  intro k
  induction k using Nat.strong_induction_on with
  | _ k ih =>
    intro x y hx hy
    by_cases hk : k = 0
    · subst hk
      rw [hx] at hy
      simp at hy
      subst hy
      exact hs.irrefl x
    · have hkl : k < l.length := (List.getElem?_eq_some.1 hx).1
      have hpl : (k - 1) / 2 < l.length := by omega
      have h1 := hu k (by omega) hkl x _ hx (List.getElem?_eq_getElem hpl)
      have h2 := ih ((k - 1) / 2) (by omega) _ y (List.getElem?_eq_getElem hpl) hy
      exact hs.negTrans h1 h2

theorem pushItem_spec [GoType T] (h : Heap T) (x : T) (hx : GoType.isNil x = false) :
    ∃ l1, Heap.PushItem x h = (Except.ok (), ⟨l1, h.less⟩) ∧ l1.Perm (h.data ++ [x]) ∧
      (StrictWeakOrder h.less → HeapProperty h → HeapProperty ⟨l1, h.less⟩) := by
  obtain ⟨l1, hrun, hperm, hheap⟩ := push_spec h.less h.data x hx
  refine ⟨l1, hrun, hperm, ?_⟩
  intro hs hp
  exact (heapProperty_iff ⟨l1, h.less⟩).2 (hheap hs ((heapProperty_iff h).1 hp))

theorem popItem_spec (h : Heap T) (r : T) (hr : h.data[0]? = some r) :
    ∃ l3, Heap.PopItem h = (Except.ok r, ⟨l3, h.less⟩) ∧ (l3 ++ [r]).Perm h.data ∧
      l3.length + 1 = h.data.length ∧
      (StrictWeakOrder h.less → HeapProperty h → HeapProperty ⟨l3, h.less⟩) := by
  obtain ⟨l3, hrun, hperm, hlen, hheap⟩ := pop_spec h.less h.data r hr
  refine ⟨l3, hrun, hperm, hlen, ?_⟩
  intro hs hp
  exact (heapProperty_iff ⟨l3, h.less⟩).2 (hheap hs ((heapProperty_iff h).1 hp))

/-! ## The empty heap -/

theorem swap_empty (less : T → T → Bool) :
    Heap.Swap 0 (-1) (⟨[], less⟩ : Heap T)
      = (Except.error (Fault.indexOutOfRange 0 0), ⟨[], less⟩) := by
  simp [Heap.Swap, run_bind, getData, index, raise]

theorem popItem_empty (less : T → T → Bool) :
    Heap.PopItem (⟨[], less⟩ : Heap T)
      = (Except.error (Fault.indexOutOfRange 0 0), ⟨[], less⟩) := by
  simp [Heap.PopItem, heap.Pop, Heap.Len, run_bind, getData, run_pure, len, swap_empty]

theorem new_eq (less : T → T → Bool) : New less = Except.ok ⟨[], less⟩ := by
  simp [New, heap.Init, Heap.Len, run_bind, getData, run_pure, len, heap.initLoop]

theorem head_some_of_ne_nil {l : List T} (hne : l ≠ []) : ∃ r, l[0]? = some r := by
  cases l with
  | nil => exact absurd rfl hne
  | cons x t => exact ⟨x, by simp⟩

/-! ## Sequences of calls -/

theorem pushAll_spec [GoType T] (less : T → T → Bool) : ∀ (xs l : List T),
    (∀ x ∈ xs, GoType.isNil x = false) →
    ∃ l1, pushAll xs ⟨l, less⟩ = (Except.ok (), ⟨l1, less⟩) ∧ l1.Perm (l ++ xs) ∧
      (StrictWeakOrder less → HeapUpTo less l l.length → HeapUpTo less l1 l1.length) := by
  intro xs
  induction xs with
  | nil =>
    intro l _
    exact ⟨l, rfl, by simp, fun _ hu => hu⟩
  | cons x xs ih =>
    intro l hnil
    obtain ⟨l1, hrun1, hperm1, hheap1⟩ := push_spec less l x
      (hnil x (List.mem_cons_self x xs))
    obtain ⟨l2, hrun2, hperm2, hheap2⟩ := ih l1
      (fun y hy => hnil y (List.mem_cons_of_mem x hy))
    refine ⟨l2, ?_, ?_, fun hs hu => hheap2 hs (hheap1 hs hu)⟩
    · rw [pushAll, Heap.PushItem, bind_ok hrun1]
      exact hrun2
    · refine hperm2.trans ?_
      have := hperm1.append_right xs
      simpa using this

theorem popN_spec {less : T → T → Bool} (hs : StrictWeakOrder less) : ∀ (n : Nat) (l : List T),
    l.length = n → HeapUpTo less l l.length →
    ∃ ys, popN n ⟨l, less⟩ = (Except.ok ys, ⟨[], less⟩) ∧ ys.Perm l ∧
      ys.Pairwise (fun a b => less b a = false) := by
  intro n
  induction n with
  | zero =>
    intro l hl _
    have : l = [] := List.length_eq_zero.1 hl
    subst this
    exact ⟨[], rfl, List.Perm.refl _, List.Pairwise.nil⟩
  | succ n ih =>
    intro l hl hu
    obtain ⟨r, hr⟩ : ∃ r, l[0]? = some r := head_some_of_ne_nil (by
      intro h; rw [h] at hl; simp at hl)
    obtain ⟨l3, hrun, hperm, hlen, hheap⟩ := pop_spec less l r hr
    obtain ⟨ys, hrun2, hperm2, hsorted⟩ := ih l3 (by omega) (hheap hs hu)
    refine ⟨r :: ys, ?_, ?_, ?_⟩
    · rw [popN, Heap.PopItem, bind_ok hrun, bind_ok hrun2]
      rfl
    · have h1 : (r :: ys).Perm (r :: l3) := hperm2.cons r
      have h2 : (r :: l3).Perm (l3 ++ [r]) := by
        simpa using (List.perm_append_comm : ([r] ++ l3).Perm (l3 ++ [r]))
      exact (h1.trans h2).trans hperm
    · refine List.Pairwise.cons ?_ hsorted
      intro y hy
      have hyl : y ∈ l := by
        have : y ∈ l3 ++ [r] := by
          rw [List.mem_append]
          exact Or.inl (hperm2.subset hy)
        exact hperm.subset this
      obtain ⟨k, hk⟩ := List.mem_iff_getElem?.1 hyl
      exact root_extreme hs hu k y r hk hr

theorem afterOps_inv [GoType T] {less : T → T → Bool} (hs : StrictWeakOrder less) :
    ∀ (ops : List (Op T)) (l : List T), HeapUpTo less l l.length →
    (afterOps ops ⟨l, less⟩).less = less ∧
      HeapUpTo less (afterOps ops ⟨l, less⟩).data (afterOps ops ⟨l, less⟩).data.length := by
  intro ops
  induction ops with
  | nil =>
    intro l hu
    exact ⟨rfl, hu⟩
  | cons op ops ih =>
    intro l hu
    cases op with
    | push x =>
      by_cases hx : GoType.isNil x = true
      · rw [afterOps, applyOp, Heap.PushItem, push_nil _ x hx]
        exact ih l hu
      · obtain ⟨l1, hrun1, _, hheap1⟩ := push_spec less l x (by simpa using hx)
        rw [afterOps, applyOp, Heap.PushItem, hrun1]
        exact ih l1 (hheap1 hs hu)
    | pop =>
      cases l with
      | nil =>
        rw [afterOps, applyOp, bind_error (popItem_empty less)]
        exact ih [] hu
      | cons x t =>
        obtain ⟨l3, hrun1, _, _, hheap1⟩ := pop_spec less (x :: t) x (by simp)
        have hap : (Heap.PopItem >>= fun _ => (pure () : HeapM T Unit)) ⟨x :: t, less⟩
            = (Except.ok (), ⟨l3, less⟩) := by
          rw [Heap.PopItem, bind_ok hrun1]
          rfl
        rw [afterOps, applyOp, hap]
        exact ih l3 (hheap1 hs hu)

/-- No sequence of `PushItem` and `PopItem` calls puts a nil interface value into the
storage: `Push` refuses it, and `PopItem` only takes elements out. So the assertion in
`PopItem` accepts whatever `Pop` hands it, on every storage built from `New`. -/
theorem afterOps_no_nil [GoType T] (less : T → T → Bool) :
    ∀ (ops : List (Op T)) (l : List T), (∀ y ∈ l, GoType.isNil y = false) →
    ∀ y ∈ (afterOps ops ⟨l, less⟩).data, GoType.isNil y = false := by
  intro ops
  induction ops with
  | nil =>
    intro l hl
    exact hl
  | cons op ops ih =>
    intro l hl
    cases op with
    | push x =>
      by_cases hx : GoType.isNil x = true
      · rw [afterOps, applyOp, Heap.PushItem, push_nil _ x hx]
        exact ih l hl
      · have hx1 : GoType.isNil x = false := by simpa using hx
        obtain ⟨l1, hrun1, hperm1, _⟩ := push_spec less l x hx1
        rw [afterOps, applyOp, Heap.PushItem, hrun1]
        refine ih l1 ?_
        intro y hy
        have hy1 := hperm1.subset hy
        rw [List.mem_append, List.mem_singleton] at hy1
        cases hy1 with
        | inl h1 => exact hl y h1
        | inr h1 => rw [h1]; exact hx1
    | pop =>
      cases l with
      | nil =>
        rw [afterOps, applyOp, bind_error (popItem_empty less)]
        exact ih [] hl
      | cons x t =>
        obtain ⟨l3, hrun1, hperm1, _, _⟩ := pop_spec less (x :: t) x (by simp)
        have hap : (Heap.PopItem >>= fun _ => (pure () : HeapM T Unit)) ⟨x :: t, less⟩
            = (Except.ok (), ⟨l3, less⟩) := by
          rw [Heap.PopItem, bind_ok hrun1]
          rfl
        rw [afterOps, applyOp, hap]
        refine ih l3 ?_
        intro y hy
        exact hl y (hperm1.subset (List.mem_append_left _ hy))

theorem runOps_size [GoType T] (less : T → T → Bool) : ∀ (ops : List (Op T)) (l : List T),
    (∀ x, Op.push x ∈ ops → GoType.isNil x = false) →
    PopsOnlyNonEmpty ops ⟨l, less⟩ →
    ∃ l1, runOps ops ⟨l, less⟩ = (Except.ok (), ⟨l1, less⟩) ∧
      l1.length + countPop ops = l.length + countPush ops := by
  intro ops
  induction ops with
  | nil =>
    intro l _ _
    exact ⟨l, rfl, rfl⟩
  | cons op ops ih =>
    intro l hnil hguard
    have hnil1 : ∀ x, Op.push x ∈ ops → GoType.isNil x = false :=
      fun y hy => hnil y (List.mem_cons_of_mem _ hy)
    cases op with
    | push x =>
      obtain ⟨l1, hrun1, hperm1, _⟩ := push_spec less l x
        (hnil x (List.mem_cons_self _ _))
      have hlen1 : l1.length = l.length + 1 := by simpa using hperm1.length_eq
      have hg : PopsOnlyNonEmpty ops ⟨l1, less⟩ := by
        have := hguard
        rw [PopsOnlyNonEmpty, Heap.PushItem, hrun1] at this
        exact this
      obtain ⟨l2, hrun2, hlen2⟩ := ih l1 hnil1 hg
      refine ⟨l2, ?_, ?_⟩
      · rw [runOps, applyOp, Heap.PushItem, bind_ok hrun1]
        exact hrun2
      · simp only [countPush, countPop]
        omega
    | pop =>
      cases l with
      | nil =>
        have := hguard.1
        simp [Heap.IsEmpty, run_bind, getData, run_pure, len] at this
      | cons x t =>
        obtain ⟨l3, hrun1, _, hlen1, _⟩ := pop_spec less (x :: t) x (by simp)
        have hg : PopsOnlyNonEmpty ops ⟨l3, less⟩ := by
          have := hguard.2
          rw [Heap.PopItem, hrun1] at this
          exact this
        obtain ⟨l2, hrun2, hlen2⟩ := ih l3 hnil1 hg
        have hap : (Heap.PopItem >>= fun _ => (pure () : HeapM T Unit)) ⟨x :: t, less⟩
            = (Except.ok (), ⟨l3, less⟩) := by
          rw [Heap.PopItem, bind_ok hrun1]
          rfl
        refine ⟨l2, ?_, ?_⟩
        · rw [runOps, applyOp, bind_ok hap]
          exact hrun2
        · simp only [countPush, countPop]
          omega

/-! ## The rules of the helper constructors and of the example program -/

theorem swo_tiedRule : StrictWeakOrder (tiedRule : T → T → Bool) := by
  constructor
  · intro a
    rfl
  · intro a b c hab
    simp [tiedRule] at hab
  · intro a b c _ _
    exact ⟨rfl, rfl⟩

theorem swo_intMaxRule : StrictWeakOrder intMaxRule := by
  constructor
  · intro a; simp [intMaxRule]
  · intro a b c; simp only [intMaxRule, decide_eq_true_eq]; omega
  · intro a b c; simp only [intMaxRule, decide_eq_false_iff_not]; omega

theorem swo_intMinRule : StrictWeakOrder intMinRule := by
  constructor
  · intro a; simp [intMinRule]
  · intro a b c; simp only [intMinRule, decide_eq_true_eq]; omega
  · intro a b c; simp only [intMinRule, decide_eq_false_iff_not]; omega

theorem swo_priceRule : StrictWeakOrder priceRule := by
  constructor
  · intro a; simp [priceRule]
  · intro a b c; simp only [priceRule, decide_eq_true_eq]; omega
  · intro a b c; simp only [priceRule, decide_eq_false_iff_not]; omega

theorem intHeap_true : IntHeap true = Except.ok ⟨[], intMaxRule⟩ := by
  simp [IntHeap, new_eq]

theorem intHeap_false : IntHeap false = Except.ok ⟨[], intMinRule⟩ := by
  simp [IntHeap, new_eq]

/-! ## The claims -/

/-- C1: `PushItem` preserves the heap property. For every rule that is a strict weak ordering,
every heap whose storage satisfies the heap property and every item `x`, the storage after
`h.PushItem(x)` again satisfies the heap property at every non-root index, and the rule is
the same. In detail: an item that is not the nil interface value is appended and sifted up,
the call returns normally and leaves a rearrangement of the old storage with `x` added; on
the nil value of an interface element type the call panics at the assertion `x.(T)` and
leaves the heap exactly as it was. -/
theorem pushItem_preserves_heapProperty [GoType T] (h : Heap T) (hs : StrictWeakOrder h.less)
    (hp : HeapProperty h) (x : T) :
    HeapProperty (Heap.PushItem x h).2 ∧ (Heap.PushItem x h).2.less = h.less ∧
    (GoType.isNil x = false →
      ∃ h1, Heap.PushItem x h = (Except.ok (), h1) ∧ h1.data.Perm (h.data ++ [x])) ∧
    (GoType.isNil x = true →
      Heap.PushItem x h = (Except.error Fault.interfaceConversion, h)) := by
  by_cases hx : GoType.isNil x = true
  · have hrun : Heap.PushItem x h = (Except.error Fault.interfaceConversion, h) :=
      push_nil h x hx
    rw [hrun]
    refine ⟨hp, rfl, ?_, fun _ => rfl⟩
    intro hf
    rw [hx] at hf
    exact absurd hf (by decide)
  · have hx1 : GoType.isNil x = false := by simpa using hx
    obtain ⟨l1, hrun, hperm, hheap⟩ := pushItem_spec h x hx1
    rw [hrun]
    exact ⟨hheap hs hp, rfl, fun _ => ⟨_, rfl, hperm⟩, fun ht => absurd ht hx⟩

/-- Instance of C1: pushing 110 onto the max-heap `[100, 70]` sifts it up to the root; pushing
the nil value onto a heap over an interface element type panics and leaves `[3]`. -/
theorem pushItem_preserves_heapProperty_witness :
    (HeapProperty (⟨[100, 70], intMaxRule⟩ : Heap Int) ∧
      (Heap.PushItem 110 (⟨[100, 70], intMaxRule⟩ : Heap Int)).2.data = [110, 70, 100] ∧
      HeapProperty (Heap.PushItem 110 (⟨[100, 70], intMaxRule⟩ : Heap Int)).2 ∧
      ∃ h1, Heap.PushItem 110 (⟨[100, 70], intMaxRule⟩ : Heap Int) = (Except.ok (), h1) ∧
        h1.data.Perm ([100, 70] ++ [110])) ∧
    (HeapProperty (⟨[some 3], tiedRule⟩ : Heap (Option Int)) ∧
      HeapProperty (Heap.PushItem none (⟨[some 3], tiedRule⟩ : Heap (Option Int))).2 ∧
      Heap.PushItem none (⟨[some 3], tiedRule⟩ : Heap (Option Int))
        = (Except.error Fault.interfaceConversion, ⟨[some 3], tiedRule⟩)) :=
  ⟨⟨by decide, rfl,
      (pushItem_preserves_heapProperty ⟨[100, 70], intMaxRule⟩ swo_intMaxRule
        (by decide) 110).1,
      (pushItem_preserves_heapProperty ⟨[100, 70], intMaxRule⟩ swo_intMaxRule
        (by decide) 110).2.2.1 rfl⟩,
    ⟨by decide,
      (pushItem_preserves_heapProperty (⟨[some 3], tiedRule⟩ : Heap (Option Int)) swo_tiedRule
        (by decide) none).1,
      (pushItem_preserves_heapProperty (⟨[some 3], tiedRule⟩ : Heap (Option Int)) swo_tiedRule
        (by decide) none).2.2.2 rfl⟩⟩

/-- C2: `PopItem` preserves the heap property. For every rule that is a strict weak ordering
and every non-empty heap whose storage satisfies the heap property, `h.PopItem()` returns
normally, keeps the rule, leaves the old storage minus the returned element (rearranged), and
the storage left again satisfies the heap property at every non-root index. -/
theorem popItem_preserves_heapProperty (h : Heap T) (hs : StrictWeakOrder h.less)
    (hne : h.data ≠ []) (hp : HeapProperty h) :
    ∃ x h1, Heap.PopItem h = (Except.ok x, h1) ∧ h1.less = h.less ∧
      (h1.data ++ [x]).Perm h.data ∧ HeapProperty h1 := by
  obtain ⟨r, hr⟩ := head_some_of_ne_nil hne
  obtain ⟨l3, hrun, hperm, _, hheap⟩ := popItem_spec h r hr
  exact ⟨r, ⟨l3, h.less⟩, hrun, rfl, hperm, hheap hs hp⟩

/-- Instance of C2: popping the max-heap `[100, 70, 90, 10, 60]` sifts 60 down past 90. -/
theorem popItem_preserves_heapProperty_witness :
    HeapProperty (⟨[100, 70, 90, 10, 60], intMaxRule⟩ : Heap Int) ∧
    (Heap.PopItem (⟨[100, 70, 90, 10, 60], intMaxRule⟩ : Heap Int)).2.data = [90, 70, 60, 10] ∧
    ∃ x h1, Heap.PopItem (⟨[100, 70, 90, 10, 60], intMaxRule⟩ : Heap Int) = (Except.ok x, h1) ∧
      h1.less = intMaxRule ∧ (h1.data ++ [x]).Perm [100, 70, 90, 10, 60] ∧ HeapProperty h1 :=
  ⟨by decide, rfl,
    popItem_preserves_heapProperty ⟨[100, 70, 90, 10, 60], intMaxRule⟩ swo_intMaxRule
      (by simp) (by decide)⟩

/-- C3: extreme correctness of `Peek`. For every strict weak ordering rule and every non-empty
heap built from `New(less)` by any sequence of `PushItem` and `PopItem` calls (calls that
panic included, the caller recovering: `PopItem` on an empty heap, `PushItem` of a nil
interface value), `Peek()` returns
an element of the container that no stored element outranks; and with rule
`a.Price > b.Price`, after pushing (Gold,100), (Silver,70), (Oil,90), `Peek` returns
(Gold,100). -/
theorem peek_extreme :
    (∀ (T : Type) [Inhabited T] [GoType T] (less : T → T → Bool), StrictWeakOrder less →
      ∀ (h : Heap T), Reachable less h → h.data ≠ [] →
        ∃ e, Heap.Peek h = (Except.ok e, h) ∧ e ∈ h.data ∧ ∀ y ∈ h.data, less y e = false) ∧
    priceHeapPeek = Except.ok ⟨"Gold", 100⟩ := by
  refine ⟨?_, rfl⟩
  intro T _ _ less hs h hreach hne
  obtain ⟨ops, h0, hnew, hrun⟩ := hreach
  rw [new_eq] at hnew
  have h0eq : h0 = ⟨[], less⟩ := by
    injection hnew with h1
    exact h1.symm
  subst h0eq
  have hinv := afterOps_inv hs ops [] (by intro k _ hk; simp at hk)
  rw [hrun] at hinv
  obtain ⟨_, hu⟩ := hinv
  obtain ⟨r, hr⟩ := head_some_of_ne_nil hne
  have hlen : len h.data ≠ 0 := by
    have := (List.getElem?_eq_some.1 hr).1
    simp only [len]
    omega
  refine ⟨r, ?_, List.mem_iff_getElem?.2 ⟨0, hr⟩, ?_⟩
  · have hidx := index_ok hr h
    simp only [Nat.cast_zero] at hidx
    simp only [Heap.Peek, run_bind, getData, if_neg hlen, hidx]
  · intro y hy
    obtain ⟨k, hk⟩ := List.mem_iff_getElem?.1 hy
    exact root_extreme hs hu k y r hk hr

/-- Instance of C3: the commodity heap of the example program. -/
theorem peek_extreme_witness :
    ∃ e, Heap.Peek (⟨[⟨"Gold", 100⟩, ⟨"Silver", 70⟩, ⟨"Oil", 90⟩], priceRule⟩ : Heap PriceEntry)
        = (Except.ok e, ⟨[⟨"Gold", 100⟩, ⟨"Silver", 70⟩, ⟨"Oil", 90⟩], priceRule⟩) ∧
      e ∈ [(⟨"Gold", 100⟩ : PriceEntry), ⟨"Silver", 70⟩, ⟨"Oil", 90⟩] ∧
      ∀ y ∈ [(⟨"Gold", 100⟩ : PriceEntry), ⟨"Silver", 70⟩, ⟨"Oil", 90⟩], priceRule y e = false :=
  peek_extreme.1 PriceEntry priceRule swo_priceRule
    ⟨[⟨"Gold", 100⟩, ⟨"Silver", 70⟩, ⟨"Oil", 90⟩], priceRule⟩
    ⟨[Op.push ⟨"Gold", 100⟩, Op.push ⟨"Silver", 70⟩, Op.push ⟨"Oil", 90⟩], ⟨[], priceRule⟩,
      new_eq priceRule, rfl⟩
    (by simp)

/-- C4: `PopItem` returns the saved root. For every rule and every non-empty heap,
`h.PopItem()` returns exactly the element at storage index 0 before the call, which is the
value `h.Peek()` returns just before. -/
theorem popItem_returns_root [Inhabited T] (h : Heap T) (hne : h.data ≠ []) :
    ∃ x h1, h.data[0]? = some x ∧ Heap.Peek h = (Except.ok x, h) ∧
      Heap.PopItem h = (Except.ok x, h1) := by
  obtain ⟨r, hr⟩ := head_some_of_ne_nil hne
  obtain ⟨l3, hrun, _, _, _⟩ := popItem_spec h r hr
  have hlen : len h.data ≠ 0 := by
    have := (List.getElem?_eq_some.1 hr).1
    simp only [len]
    omega
  have hidx := index_ok hr h
  simp only [Nat.cast_zero] at hidx
  refine ⟨r, ⟨l3, h.less⟩, hr, ?_, hrun⟩
  simp only [Heap.Peek, run_bind, getData, if_neg hlen, hidx]

/-- Instance of C4: on the min-heap `[10, 70, 30]` both `Peek` and `PopItem` give 10. -/
theorem popItem_returns_root_witness :
    (Heap.PopItem (⟨[10, 70, 30], intMinRule⟩ : Heap Int)).1 = Except.ok 10 ∧
    ∃ x h1, ([10, 70, 30] : List Int)[0]? = some x ∧
      Heap.Peek (⟨[10, 70, 30], intMinRule⟩ : Heap Int) = (Except.ok x, ⟨[10, 70, 30], intMinRule⟩) ∧
      Heap.PopItem (⟨[10, 70, 30], intMinRule⟩ : Heap Int) = (Except.ok x, h1) :=
  ⟨rfl, popItem_returns_root ⟨[10, 70, 30], intMinRule⟩ (by simp)⟩

/-- Pushing a list without nil interface values and popping as many times, on a heap whose
rule is a strict weak ordering: the pops return a rearrangement of the list in which no later
output outranks an earlier one, and the heap ends empty. -/
theorem pushThenPopAll_spec [GoType T] {less : T → T → Bool} (hs : StrictWeakOrder less)
    (xs : List T) (hnil : ∀ x ∈ xs, GoType.isNil x = false) :
    ∃ ys, pushThenPopAll xs (⟨[], less⟩ : Heap T) = (Except.ok (ys, true), ⟨[], less⟩) ∧
      ys.Perm xs ∧ ys.Pairwise (fun a b => less b a = false) := by
  obtain ⟨l1, hrun1, hperm1, hheap1⟩ := pushAll_spec less xs [] hnil
  have hlen1 : l1.length = xs.length := by simpa using hperm1.length_eq
  obtain ⟨ys, hrun2, hperm2, hsorted⟩ := popN_spec hs xs.length l1 hlen1
    (hheap1 hs (by intro k _ hk; simp at hk))
  refine ⟨ys, ?_, hperm2.trans (by simpa using hperm1), hsorted⟩
  rw [pushThenPopAll, bind_ok hrun1, bind_ok hrun2]
  rfl

/-- Sort-via-heap where it holds. For every strict weak ordering rule and every list `xs`
without nil interface values, pushing all of `xs` into `New(less)` and popping `len(xs)` times
yields a permutation of `xs` in which no output outranks an earlier one (in particular not the
one right before it), and the heap is empty afterwards; for `IntHeap(true)` the outputs are
`xs` in non-increasing order, for `IntHeap(false)` in non-decreasing order; and 100, 70, 90
pushed into `IntHeap(true)` pop as 100, 90, 70, after which `IsEmpty()` is true. -/
theorem sort_via_heap_no_nil :
    (∀ (T : Type) [GoType T] (less : T → T → Bool), StrictWeakOrder less →
      ∃ h0, New less = Except.ok h0 ∧ ∀ xs : List T, (∀ x ∈ xs, GoType.isNil x = false) →
        ∃ ys h1,
        pushThenPopAll xs h0 = (Except.ok (ys, true), h1) ∧ h1.data = [] ∧ ys.Perm xs ∧
        ys.Pairwise (fun a b => less b a = false) ∧
        ys.Chain' (fun a b => less b a = false)) ∧
    (∃ h0, IntHeap true = Except.ok h0 ∧ ∀ xs : List Int, ∃ ys h1,
        pushThenPopAll xs h0 = (Except.ok (ys, true), h1) ∧ h1.data = [] ∧ ys.Perm xs ∧
        ys.Sorted (fun a b => a ≥ b)) ∧
    (∃ h0, IntHeap false = Except.ok h0 ∧ ∀ xs : List Int, ∃ ys h1,
        pushThenPopAll xs h0 = (Except.ok (ys, true), h1) ∧ h1.data = [] ∧ ys.Perm xs ∧
        ys.Sorted (fun a b => a ≤ b)) ∧
    intHeapPopAll = Except.ok ([100, 90, 70], true) := by
  refine ⟨?_, ?_, ?_, rfl⟩
  · intro T _ less hs
    refine ⟨⟨[], less⟩, new_eq less, ?_⟩
    intro xs hnil
    obtain ⟨ys, hrun, hperm, hsorted⟩ := pushThenPopAll_spec hs xs hnil
    exact ⟨ys, _, hrun, rfl, hperm, hsorted, hsorted.chain'⟩
  · refine ⟨⟨[], intMaxRule⟩, intHeap_true, ?_⟩
    intro xs
    obtain ⟨ys, hrun, hperm, hsorted⟩ := pushThenPopAll_spec swo_intMaxRule xs
      (fun _ _ => rfl)
    refine ⟨ys, _, hrun, rfl, hperm, hsorted.imp ?_⟩
    intro a b hab
    simp only [intMaxRule, decide_eq_false_iff_not] at hab
    omega
  · refine ⟨⟨[], intMinRule⟩, intHeap_false, ?_⟩
    intro xs
    obtain ⟨ys, hrun, hperm, hsorted⟩ := pushThenPopAll_spec swo_intMinRule xs
      (fun _ _ => rfl)
    refine ⟨ys, _, hrun, rfl, hperm, hsorted.imp ?_⟩
    intro a b hab
    simp only [intMinRule, decide_eq_false_iff_not] at hab
    omega

/-- Example: the min rule on `int` sorts 5, 1, 4 into 1, 4, 5. -/
theorem sort_via_heap_no_nil_example :
    (pushThenPopAll [5, 1, 4] (⟨[], intMinRule⟩ : Heap Int)).1.toOption
      = some ([1, 4, 5], true) ∧
    ∃ h0, New intMinRule = Except.ok h0 ∧ ∀ xs : List Int,
        (∀ x ∈ xs, GoType.isNil x = false) → ∃ ys h1,
        pushThenPopAll xs h0 = (Except.ok (ys, true), h1) ∧ h1.data = [] ∧ ys.Perm xs ∧
        ys.Pairwise (fun a b => intMinRule b a = false) ∧
        ys.Chain' (fun a b => intMinRule b a = false) :=
  ⟨by decide!, sort_via_heap_no_nil.1 Int intMinRule swo_intMinRule⟩

/-- C5, the code at the failing input: on a heap over an interface element type, built by
`New` with the rule under which all elements are tied (a strict weak ordering), pushing the
one-element list that holds the nil value panics at the assertion `x.(T)` in `Push`; nothing
is stored and nothing is popped, where the claim has the pops return a permutation of the
list. A list of non-nil values goes through. -/
theorem sort_via_heap_nil_item :
    StrictWeakOrder (tiedRule : Option Int → Option Int → Bool) ∧
    New (tiedRule : Option Int → Option Int → Bool) = Except.ok ⟨[], tiedRule⟩ ∧
    pushThenPopAll [none] (⟨[], tiedRule⟩ : Heap (Option Int))
      = (Except.error Fault.interfaceConversion, ⟨[], tiedRule⟩) ∧
    pushThenPopAll [some 7] (⟨[], tiedRule⟩ : Heap (Option Int))
      = (Except.ok ([some 7], true), ⟨[], tiedRule⟩) :=
  ⟨swo_tiedRule, new_eq _, rfl, rfl⟩

/-- Size conservation where it holds. For every rule, starting from `New(rule)`, any sequence
of `k` `PushItem` calls, none of a nil interface value, and `m` `PopItem` calls in which
`PopItem` is never called on an empty heap runs without panic, has `m ≤ k`, and leaves
`Size()` equal to `k - m`; each `PushItem` of a non-nil item increases `Size()` by exactly 1
and each `PopItem` on a non-empty heap decreases it by exactly 1. -/
theorem size_conservation_no_nil [GoType T] (less : T → T → Bool) :
    (∃ h0, New less = Except.ok h0 ∧ ∀ ops : List (Op T),
      (∀ x, Op.push x ∈ ops → GoType.isNil x = false) → PopsOnlyNonEmpty ops h0 →
      ∃ h, runOps ops h0 = (Except.ok (), h) ∧ countPop ops ≤ countPush ops ∧
        Heap.Size h = (Except.ok ((countPush ops : Int) - (countPop ops : Int)), h)) ∧
    (∀ (h : Heap T) (x : T), GoType.isNil x = false → ∃ n h1, Heap.Size h = (Except.ok n, h) ∧
      Heap.PushItem x h = (Except.ok (), h1) ∧ Heap.Size h1 = (Except.ok (n + 1), h1)) ∧
    (∀ h : Heap T, (Heap.IsEmpty h).1 = Except.ok false → ∃ n x h1,
      Heap.Size h = (Except.ok n, h) ∧ Heap.PopItem h = (Except.ok x, h1) ∧
      Heap.Size h1 = (Except.ok (n - 1), h1)) := by
  refine ⟨⟨⟨[], less⟩, new_eq less, ?_⟩, ?_, ?_⟩
  · intro ops hnil hguard
    obtain ⟨l1, hrun, hlen⟩ := runOps_size less ops [] hnil hguard
    simp only [List.length_nil, Nat.zero_add] at hlen
    refine ⟨⟨l1, less⟩, hrun, by omega, ?_⟩
    have : ((countPush ops : Int) - (countPop ops : Int)) = (l1.length : Int) := by omega
    rw [this]
    rfl
  · intro h x hx
    obtain ⟨l1, hrun, hperm, _⟩ := pushItem_spec h x hx
    have hlen1 : l1.length = h.data.length + 1 := by simpa using hperm.length_eq
    refine ⟨len h.data, ⟨l1, h.less⟩, rfl, hrun, ?_⟩
    simp only [Heap.Size, run_bind, getData, run_pure, len, hlen1]
    simp
  · intro h hne
    have hne1 : h.data ≠ [] := by
      intro he
      simp [Heap.IsEmpty, run_bind, getData, run_pure, len, he] at hne
    obtain ⟨r, hr⟩ := head_some_of_ne_nil hne1
    obtain ⟨l3, hrun, _, hlen3, _⟩ := popItem_spec h r hr
    refine ⟨len h.data, r, ⟨l3, h.less⟩, rfl, hrun, ?_⟩
    simp only [Heap.Size, run_bind, getData, run_pure, len, ← hlen3]
    simp

/-- Example: two pushes, a pop and a push on a fresh max-heap leave two elements. -/
theorem size_conservation_no_nil_example :
    ∃ h, runOps [Op.push 5, Op.push 9, Op.pop, Op.push 7] (⟨[], intMaxRule⟩ : Heap Int)
        = (Except.ok (), h) ∧
      countPop [Op.push (5 : Int), Op.push 9, Op.pop, Op.push 7]
        ≤ countPush [Op.push (5 : Int), Op.push 9, Op.pop, Op.push 7] ∧
      Heap.Size h = (Except.ok
        ((countPush [Op.push (5 : Int), Op.push 9, Op.pop, Op.push 7] : Int)
          - (countPop [Op.push (5 : Int), Op.push 9, Op.pop, Op.push 7] : Int)), h) := by
  obtain ⟨h0, hnew, hall⟩ := (size_conservation_no_nil intMaxRule).1
  rw [new_eq] at hnew
  injection hnew with h1
  subst h1
  exact hall [Op.push 5, Op.push 9, Op.pop, Op.push 7] (fun _ _ => rfl) ⟨rfl, trivial⟩

/-- C6, the code at the failing input: on the empty heap `New` returns over an interface
element type, one `PushItem` of the nil value (k = 1, m = 0) panics at the assertion `x.(T)`
in `Push`, and `Size()` is 0 before and after, where the claim has it rise to 1. A non-nil
item raises it to 1. -/
theorem size_conservation_nil_item :
    New (tiedRule : Option Int → Option Int → Bool) = Except.ok ⟨[], tiedRule⟩ ∧
    Heap.Size (⟨[], tiedRule⟩ : Heap (Option Int)) = (Except.ok 0, ⟨[], tiedRule⟩) ∧
    Heap.PushItem none (⟨[], tiedRule⟩ : Heap (Option Int))
      = (Except.error Fault.interfaceConversion, ⟨[], tiedRule⟩) ∧
    Heap.Size (Heap.PushItem none (⟨[], tiedRule⟩ : Heap (Option Int))).2
      = (Except.ok 0, ⟨[], tiedRule⟩) ∧
    countPush [Op.push (none : Option Int)] = 1 ∧
    countPop [Op.push (none : Option Int)] = 0 ∧
    Heap.Size (Heap.PushItem (some 7) (⟨[], tiedRule⟩ : Heap (Option Int))).2
      = (Except.ok 1, ⟨[some 7], tiedRule⟩) :=
  ⟨new_eq _, rfl, rfl, rfl, rfl, rfl, rfl⟩

/-- C7: empty-container extraction fails. For every rule, `PopItem()` on a heap with zero
elements returns no value: the first `Swap(0, -1)` panics (the run-time panic
`index out of range [0] with length 0`, index 0 being checked first) before any mutation, so
the heap is still empty with the same rule; and `PopItem()` on a non-empty heap never
fails. -/
theorem popItem_empty_fails :
    (∀ (T : Type) (h : Heap T), h.data = [] →
      Heap.Swap 0 (-1) h = (Except.error (Fault.indexOutOfRange 0 0), h) ∧
      Heap.PopItem h = (Except.error (Fault.indexOutOfRange 0 0), h)) ∧
    (∀ (T : Type) (h : Heap T), h.data ≠ [] → ∃ x h1, Heap.PopItem h = (Except.ok x, h1)) := by
  constructor
  · intro T h he
    obtain ⟨l, less⟩ := h
    simp only at he
    subst he
    exact ⟨swap_empty less, popItem_empty less⟩
  · intro T h hne
    obtain ⟨r, hr⟩ := head_some_of_ne_nil hne
    obtain ⟨l3, hrun, _⟩ := popItem_spec h r hr
    exact ⟨r, _, hrun⟩

/-- Instance of C7: `IntHeap(true)` fresh from the constructor panics on `PopItem`, and the
one-element heap `[5]` does not. -/
theorem popItem_empty_fails_witness :
    IntHeap true = Except.ok ⟨[], intMaxRule⟩ ∧
    (Heap.Swap 0 (-1) (⟨[], intMaxRule⟩ : Heap Int)
        = (Except.error (Fault.indexOutOfRange 0 0), ⟨[], intMaxRule⟩) ∧
      Heap.PopItem (⟨[], intMaxRule⟩ : Heap Int)
        = (Except.error (Fault.indexOutOfRange 0 0), ⟨[], intMaxRule⟩)) ∧
    ∃ x h1, Heap.PopItem (⟨[5], intMaxRule⟩ : Heap Int) = (Except.ok x, h1) :=
  ⟨intHeap_true, popItem_empty_fails.1 Int ⟨[], intMaxRule⟩ rfl,
    popItem_empty_fails.2 Int ⟨[5], intMaxRule⟩ (by simp)⟩

/-- C8: `Peek` is total and non-mutating. For every heap, `Peek()` returns the zero value of
`T` when the heap has no elements and the element at storage index 0 otherwise; it never
panics, and storage and rule are the same after the call as before. -/
theorem peek_total_nonmutating [Inhabited T] (h : Heap T) :
    (h.data = [] → Heap.Peek h = (Except.ok default, h)) ∧
    (∀ x, h.data[0]? = some x → Heap.Peek h = (Except.ok x, h)) ∧
    (∃ v, Heap.Peek h = (Except.ok v, h)) := by
  have hempty : h.data = [] → Heap.Peek h = (Except.ok default, h) := by
    intro he
    simp [Heap.Peek, run_bind, getData, run_pure, len, he]
  have hfull : ∀ x, h.data[0]? = some x → Heap.Peek h = (Except.ok x, h) := by
    intro x hx
    have hlen : len h.data ≠ 0 := by
      have := (List.getElem?_eq_some.1 hx).1
      simp only [len]
      omega
    have hidx := index_ok hx h
    simp only [Nat.cast_zero] at hidx
    simp only [Heap.Peek, run_bind, getData, if_neg hlen, hidx]
  refine ⟨hempty, hfull, ?_⟩
  by_cases he : h.data = []
  · exact ⟨default, hempty he⟩
  · obtain ⟨r, hr⟩ := head_some_of_ne_nil he
    exact ⟨r, hfull r hr⟩

/-- Instance of C8: `Peek` on an empty `int` heap gives 0, on `[7, 3]` gives 7. -/
theorem peek_total_nonmutating_witness :
    Heap.Peek (⟨[], intMaxRule⟩ : Heap Int) = (Except.ok 0, ⟨[], intMaxRule⟩) ∧
    Heap.Peek (⟨[7, 3], intMaxRule⟩ : Heap Int) = (Except.ok 7, ⟨[7, 3], intMaxRule⟩) :=
  ⟨(peek_total_nonmutating (⟨[], intMaxRule⟩ : Heap Int)).1 rfl,
    (peek_total_nonmutating (⟨[7, 3], intMaxRule⟩ : Heap Int)).2.1 7 rfl⟩

/-- C9: empty-state correctness. For every heap, `IsEmpty()` is true exactly when `Size()` is
0, `Size()` equals `Len()` and is the number of stored elements, none of the three calls
changes the heap; and the heap `New(rule)` returns has `Size() == 0` and `IsEmpty() == true`. -/
theorem empty_state (h : Heap T) (rule : T → T → Bool) :
    (∃ b n, Heap.IsEmpty h = (Except.ok b, h) ∧ Heap.Size h = (Except.ok n, h) ∧
      Heap.Len h = (Except.ok n, h) ∧ (b = true ↔ n = 0) ∧ n = (h.data.length : Int)) ∧
    (∃ h0, New rule = Except.ok h0 ∧ Heap.Size h0 = (Except.ok 0, h0) ∧
      Heap.IsEmpty h0 = (Except.ok true, h0)) := by
  constructor
  · refine ⟨decide (len h.data = 0), len h.data, rfl, rfl, rfl, ?_, rfl⟩
    simp
  · exact ⟨⟨[], rule⟩, new_eq rule, rfl, rfl⟩

/-- C10: `Clear` resets to the freshly constructed state. For every heap with rule `r`,
`h.Clear()` leaves a heap with `Size() == 0`, `IsEmpty() == true`, `Peek()` the zero value and
rule `r`: exactly the heap `New(r)` returns, so every later sequence of
`PushItem`/`PopItem`/`Peek`/`ToSlice` calls has the same outcomes on both. -/
theorem clear_resets [Inhabited T] [GoType T] (h : Heap T) :
    ∃ h1, Heap.Clear h = (Except.ok (), h1) ∧ h1.less = h.less ∧
      Heap.Size h1 = (Except.ok 0, h1) ∧ Heap.IsEmpty h1 = (Except.ok true, h1) ∧
      Heap.Peek h1 = (Except.ok default, h1) ∧
      New h.less = Except.ok h1 ∧
      ∀ cs : List (Call T), ∃ h0, New h.less = Except.ok h0 ∧ observe cs h1 = observe cs h0 := by
  refine ⟨⟨[], h.less⟩, ?_, rfl, rfl, rfl, rfl, new_eq h.less, ?_⟩
  · simp [Heap.Clear, run_bind, getData, setData]
  · intro cs
    exact ⟨⟨[], h.less⟩, new_eq h.less, rfl⟩

/-! ## Peek after a run of pushes -/

theorem peek_of_head [Inhabited T] {h : Heap T} {x : T} (hx : h.data[0]? = some x) :
    Heap.Peek h = (Except.ok x, h) := by
  have hlen : len h.data ≠ 0 := by
    have := (List.getElem?_eq_some.1 hx).1
    simp only [len]
    omega
  have hidx := index_ok hx h
  simp only [Nat.cast_zero] at hidx
  simp only [Heap.Peek, run_bind, getData, if_neg hlen, hidx]

theorem size_eq (h : Heap T) : Heap.Size h = (Except.ok (h.data.length : Int), h) := rfl

/-- After pushing a non-empty list without nil interface values into an empty heap whose rule
is a strict weak ordering,
`Peek` returns an element of the list that none of the list outranks, and `Size` its length. -/
theorem pushThenPeek_spec [Inhabited T] [GoType T] {less : T → T → Bool}
    (hs : StrictWeakOrder less) (xs : List T) (hne : xs ≠ [])
    (hnil : ∀ x ∈ xs, GoType.isNil x = false) :
    ∃ m l1, pushThenPeek xs (⟨[], less⟩ : Heap T)
        = (Except.ok (m, (xs.length : Int)), ⟨l1, less⟩) ∧
      m ∈ xs ∧ ∀ y ∈ xs, less y m = false := by
  obtain ⟨l1, hrun, hperm, hheap⟩ := pushAll_spec less xs [] hnil
  have hperm1 : l1.Perm xs := by simpa using hperm
  have hu := hheap hs (by intro k _ hk; simp at hk)
  have hl1 : l1 ≠ [] := by
    intro he
    rw [he] at hperm1
    exact hne hperm1.symm.eq_nil
  obtain ⟨r, hr⟩ := head_some_of_ne_nil hl1
  have hpeek : Heap.Peek (⟨l1, less⟩ : Heap T) = (Except.ok r, ⟨l1, less⟩) := peek_of_head hr
  refine ⟨r, l1, ?_, hperm1.subset (List.mem_iff_getElem?.2 ⟨0, hr⟩), ?_⟩
  · rw [pushThenPeek, bind_ok hrun, bind_ok hpeek, bind_ok (size_eq _), run_pure,
      hperm1.length_eq]
  · intro y hy
    obtain ⟨k, hk⟩ := List.mem_iff_getElem?.1 (hperm1.symm.subset hy)
    exact root_extreme hs hu k y r hk hr

/-- On a linear order the rule `a > b` is a strict weak ordering. -/
theorem swo_gt {α : Type} [LinearOrder α] :
    StrictWeakOrder (fun a b : α => decide (a > b)) := by
  constructor
  · intro a
    simp
  · intro a b c hab hbc
    simp only [decide_eq_true_eq] at hab hbc ⊢
    exact lt_trans hbc hab
  · intro a b c h1 h2
    simp only [decide_eq_false_iff_not, not_lt] at h1 h2 ⊢
    exact ⟨le_trans h1.1 h2.1, le_trans h2.2 h1.2⟩

/-- On a linear order the rule `a < b` is a strict weak ordering. -/
theorem swo_lt {α : Type} [LinearOrder α] :
    StrictWeakOrder (fun a b : α => decide (a < b)) := by
  constructor
  · intro a
    simp
  · intro a b c hab hbc
    simp only [decide_eq_true_eq] at hab hbc ⊢
    exact lt_trans hab hbc
  · intro a b c h1 h2
    simp only [decide_eq_false_iff_not, not_lt] at h1 h2 ⊢
    exact ⟨le_trans h2.1 h1.1, le_trans h1.2 h2.2⟩

theorem swo_stringMaxRule : StrictWeakOrder stringMaxRule := swo_gt

theorem swo_stringMinRule : StrictWeakOrder stringMinRule := swo_lt

theorem stringHeap_true : StringHeap true = Except.ok ⟨[], stringMaxRule⟩ := by
  simp [StringHeap, new_eq]

theorem stringHeap_false : StringHeap false = Except.ok ⟨[], stringMinRule⟩ := by
  simp [StringHeap, new_eq]

/-! ## `ToSlice` -/

theorem copy_make [Inhabited T] (d : List T) : copy (make (len d)) d = d := by
  simp [copy, make, len]

theorem toSlice_run [Inhabited T] (h : Heap T) : Heap.ToSlice h = (Except.ok h.data, h) := by
  simp only [Heap.ToSlice, run_bind, getData, run_pure, copy_make]

/-- Reading a slice whose length fits its backing array gives exactly that many elements. -/
theorem read_length (m : Mem T) (s : Slice)
    (hv : s.len ≤ (m.arrays.getD s.array []).length) : (m.read s).length = s.len := by
  simp only [Mem.read, List.length_take]
  omega

/-- After `ToSlice` on memory the new slice shows the elements of `data`. -/
theorem toSliceMem_read_result [Inhabited T] (m : Mem T) (data : Slice)
    (hv : data.len ≤ (m.arrays.getD data.array []).length) :
    (ToSliceMem m data).2.read (ToSliceMem m data).1 = m.read data := by
  have hlen := read_length m data hv
  simp only [ToSliceMem, Mem.make, Mem.copy, Mem.read, List.getD_eq_getElem?_getD,
    List.getElem?_concat_length, Option.getD_some, List.take_replicate, min_self,
    List.drop_replicate, Nat.sub_self, List.replicate_zero, List.append_nil]
  simp only [Mem.read, List.getD_eq_getElem?_getD] at hlen
  rw [List.set_append_right _ _ (le_refl _)]
  simp only [Nat.sub_self, List.set_cons_zero, List.getElem?_concat_length, Option.getD_some,
    List.getElem?_append_left, List.length_append, List.length_singleton]
  by_cases hin : data.array < m.arrays.length
  · rw [List.getElem?_append_left hin]
    simp only [copy, List.length_replicate, List.length_take, hlen, min_self]
    simp [hlen, List.take_take]
  · have hnone : m.arrays[data.array]? = none := List.getElem?_eq_none (by omega)
    have h0 : data.len = 0 := by
      rw [hnone] at hlen
      simpa using hlen.symm
    simp [copy, h0]

/-- Array `a` of memory is untouched by `ToSlice` and by later stores through the slice
`ToSlice` returned, when `a` was there before the call. -/
theorem toSliceMem_frame [Inhabited T] (m : Mem T) (data : Slice) (i : Nat) (v : T)
    (a : Nat) (ha : a < m.arrays.length) :
    (ToSliceMem m data).2.arrays[a]? = m.arrays[a]? ∧
    ((ToSliceMem m data).2.store (ToSliceMem m data).1 i v).arrays[a]? = m.arrays[a]? := by
  have h1 : (ToSliceMem m data).2.arrays[a]? = m.arrays[a]? := by
    simp only [ToSliceMem, Mem.make, Mem.copy]
    rw [List.getElem?_set_ne (by omega), List.getElem?_append_left ha]
  refine ⟨h1, ?_⟩
  unfold Mem.store
  split
  · have hr : (ToSliceMem m data).1.array = m.arrays.length := rfl
    simp only
    rw [List.getElem?_set_ne (by omega)]
    exact h1
  · exact h1

/-- The slice `data` reads the same before `ToSlice`, after it, and after any store through
the returned slice. -/
theorem toSliceMem_read_data [Inhabited T] (m : Mem T) (data : Slice)
    (hv : data.len ≤ (m.arrays.getD data.array []).length) (i : Nat) (v : T) :
    (ToSliceMem m data).2.read data = m.read data ∧
    ((ToSliceMem m data).2.store (ToSliceMem m data).1 i v).read data = m.read data := by
  by_cases hin : data.array < m.arrays.length
  · obtain ⟨h1, h2⟩ := toSliceMem_frame m data i v data.array hin
    simp only [Mem.read, List.getD_eq_getElem?_getD, h1, h2, and_self]
  · have hnone : m.arrays[data.array]? = none := List.getElem?_eq_none (by omega)
    have h0 : data.len = 0 := by
      simp only [List.getD_eq_getElem?_getD, hnone] at hv
      simpa using hv
    simp [Mem.read, h0]

/-- C11: `ToSlice` is a snapshot in internal array order. For every heap, `ToSlice()` returns
a sequence of length `Size()` whose i-th element is the i-th element of the backing storage
(so on a non-empty heap its first element is what `Peek()` returns) and leaves the heap
unchanged; on memory, the returned slice lives in a new backing array, so after any later
store through it the heap's storage reads as before, and `Peek`, `Size`, `PopItem` and
`ToSlice` on the heap give what they gave before. -/
theorem toSlice_snapshot [Inhabited T] :
    (∀ h : Heap T, ∃ xs : List T, Heap.ToSlice h = (Except.ok xs, h) ∧
      Heap.Size h = (Except.ok (xs.length : Int), h) ∧ (∀ i : Nat, xs[i]? = h.data[i]?) ∧
      (h.data ≠ [] → ∃ x, Heap.Peek h = (Except.ok x, h) ∧ xs[0]? = some x)) ∧
    (∀ (m : Mem T) (data : Slice) (less : T → T → Bool),
      data.len ≤ (m.arrays.getD data.array []).length →
      (Heap.ToSlice (heapAt m data less)).1
        = Except.ok ((ToSliceMem m data).2.read (ToSliceMem m data).1) ∧
      heapAt (ToSliceMem m data).2 data less = heapAt m data less ∧
      ∀ (i : Nat) (v : T),
        heapAt ((ToSliceMem m data).2.store (ToSliceMem m data).1 i v) data less
          = heapAt m data less ∧
        Heap.Peek (heapAt ((ToSliceMem m data).2.store (ToSliceMem m data).1 i v) data less)
          = Heap.Peek (heapAt m data less) ∧
        Heap.Size (heapAt ((ToSliceMem m data).2.store (ToSliceMem m data).1 i v) data less)
          = Heap.Size (heapAt m data less) ∧
        Heap.PopItem (heapAt ((ToSliceMem m data).2.store (ToSliceMem m data).1 i v) data less)
          = Heap.PopItem (heapAt m data less) ∧
        Heap.ToSlice (heapAt ((ToSliceMem m data).2.store (ToSliceMem m data).1 i v) data less)
          = Heap.ToSlice (heapAt m data less)) := by
  constructor
  · intro h
    refine ⟨h.data, toSlice_run h, rfl, fun _ => rfl, ?_⟩
    intro hne
    obtain ⟨r, hr⟩ := head_some_of_ne_nil hne
    exact ⟨r, peek_of_head hr, hr⟩
  · intro m data less hv
    refine ⟨?_, ?_, ?_⟩
    · rw [toSlice_run, toSliceMem_read_result m data hv]
      rfl
    · simp only [heapAt, (toSliceMem_read_data m data hv 0 default).1]
    · intro i v
      have heq : heapAt ((ToSliceMem m data).2.store (ToSliceMem m data).1 i v) data less
          = heapAt m data less := by
        simp only [heapAt, (toSliceMem_read_data m data hv i v).2]
      rw [heq]
      exact ⟨rfl, rfl, rfl, rfl, rfl⟩

/-- Instance of C11: the heap's storage `[7, 3, 5]` is array 0; `ToSlice` returns a slice over
the new array 1, and storing 99 through it changes array 1 only. -/
theorem toSlice_snapshot_witness :
    ((ToSliceMem (⟨[[7, 3, 5]]⟩ : Mem Int) ⟨0, 3⟩).2.store
        (ToSliceMem (⟨[[7, 3, 5]]⟩ : Mem Int) ⟨0, 3⟩).1 0 99).arrays
      = [[7, 3, 5], [99, 3, 5]] ∧
    ((Heap.ToSlice (heapAt (⟨[[7, 3, 5]]⟩ : Mem Int) ⟨0, 3⟩ intMaxRule)).1
        = Except.ok ((ToSliceMem (⟨[[7, 3, 5]]⟩ : Mem Int) ⟨0, 3⟩).2.read
            (ToSliceMem (⟨[[7, 3, 5]]⟩ : Mem Int) ⟨0, 3⟩).1) ∧
      heapAt (ToSliceMem (⟨[[7, 3, 5]]⟩ : Mem Int) ⟨0, 3⟩).2 ⟨0, 3⟩ intMaxRule
        = heapAt (⟨[[7, 3, 5]]⟩ : Mem Int) ⟨0, 3⟩ intMaxRule) :=
  ⟨by decide,
    (toSlice_snapshot.2 (⟨[[7, 3, 5]]⟩ : Mem Int) ⟨0, 3⟩ intMaxRule (by decide)).1,
    (toSlice_snapshot.2 (⟨[[7, 3, 5]]⟩ : Mem Int) ⟨0, 3⟩ intMaxRule (by decide)).2.1⟩

/-- C12: `IntHeap` polarity. For every non-empty list `xs` of integers, after pushing every
element of `xs` into `IntHeap(true)`, `Peek()` returns the maximum of `xs` and `Size()`
returns `len(xs)`; after pushing them into `IntHeap(false)`, `Peek()` returns the minimum of
`xs`; and pushing 100, 70, 90 gives `Peek` 100 and `Size` 3 for `IntHeap(true)`, `Peek` 70 for
`IntHeap(false)`. -/
theorem intHeap_polarity :
    (∃ h0, IntHeap true = Except.ok h0 ∧ ∀ xs : List Int, xs ≠ [] → ∃ m h1,
      pushThenPeek xs h0 = (Except.ok (m, (xs.length : Int)), h1) ∧
      m ∈ xs ∧ (∀ y ∈ xs, y ≤ m) ∧ xs.maximum = (m : WithBot Int)) ∧
    (∃ h0, IntHeap false = Except.ok h0 ∧ ∀ xs : List Int, xs ≠ [] → ∃ m h1,
      pushThenPeek xs h0 = (Except.ok (m, (xs.length : Int)), h1) ∧
      m ∈ xs ∧ (∀ y ∈ xs, m ≤ y) ∧ xs.minimum = (m : WithTop Int)) ∧
    intMaxHeapPeekSize = Except.ok (100, 3) ∧
    intMinHeapPeek = Except.ok 70 := by
  refine ⟨⟨⟨[], intMaxRule⟩, intHeap_true, ?_⟩, ⟨⟨[], intMinRule⟩, intHeap_false, ?_⟩, rfl, rfl⟩
  · intro xs hne
    obtain ⟨m, l1, hrun, hmem, hext⟩ := pushThenPeek_spec swo_intMaxRule xs hne
      (fun _ _ => rfl)
    have hle : ∀ y ∈ xs, y ≤ m := by
      intro y hy
      have := hext y hy
      simp only [intMaxRule, decide_eq_false_iff_not] at this
      omega
    exact ⟨m, _, hrun, hmem, hle, List.maximum_eq_coe_iff.2 ⟨hmem, hle⟩⟩
  · intro xs hne
    obtain ⟨m, l1, hrun, hmem, hext⟩ := pushThenPeek_spec swo_intMinRule xs hne
      (fun _ _ => rfl)
    have hle : ∀ y ∈ xs, m ≤ y := by
      intro y hy
      have := hext y hy
      simp only [intMinRule, decide_eq_false_iff_not] at this
      omega
    exact ⟨m, _, hrun, hmem, hle, List.minimum_eq_coe_iff.2 ⟨hmem, hle⟩⟩

/-- Instance of C12: pushing 3, 8, 5 into the fresh max-heap makes `Peek` return 8. -/
theorem intHeap_polarity_witness :
    (pushThenPeek [3, 8, 5] (⟨[], intMaxRule⟩ : Heap Int)).1 = Except.ok (8, 3) ∧
    ∃ m h1, pushThenPeek [3, 8, 5] (⟨[], intMaxRule⟩ : Heap Int)
        = (Except.ok (m, (([3, 8, 5] : List Int).length : Int)), h1) ∧
      m ∈ ([3, 8, 5] : List Int) ∧ (∀ y ∈ ([3, 8, 5] : List Int), y ≤ m) ∧
      ([3, 8, 5] : List Int).maximum = (m : WithBot Int) := by
  refine ⟨rfl, ?_⟩
  obtain ⟨h0, hnew, hall⟩ := intHeap_polarity.1
  rw [intHeap_true] at hnew
  injection hnew with h1
  subst h1
  exact hall [3, 8, 5] (by simp)

/-- C13: `StringHeap` ordering. For every non-empty list `xs` of strings, after pushing every
element of `xs` into `StringHeap(true)`, `Peek()` returns the largest string of `xs` in the
lexicographic byte-wise order, and after pushing them into `StringHeap(false)` the smallest;
and pushing "apple", "banana", "cherry" into `StringHeap(true)` gives `Peek` "cherry". -/
theorem stringHeap_ordering :
    (∃ h0, StringHeap true = Except.ok h0 ∧ ∀ xs : List GoString, xs ≠ [] → ∃ m h1,
      pushThenPeek xs h0 = (Except.ok (m, (xs.length : Int)), h1) ∧
      m ∈ xs ∧ ∀ y ∈ xs, y ≤ m) ∧
    (∃ h0, StringHeap false = Except.ok h0 ∧ ∀ xs : List GoString, xs ≠ [] → ∃ m h1,
      pushThenPeek xs h0 = (Except.ok (m, (xs.length : Int)), h1) ∧
      m ∈ xs ∧ ∀ y ∈ xs, m ≤ y) ∧
    stringHeapPeek.toOption = some (goString "cherry") := by
  refine ⟨⟨⟨[], stringMaxRule⟩, stringHeap_true, ?_⟩,
    ⟨⟨[], stringMinRule⟩, stringHeap_false, ?_⟩, by decide!⟩
  · intro xs hne
    obtain ⟨m, l1, hrun, hmem, hext⟩ := pushThenPeek_spec swo_stringMaxRule xs hne
      (fun _ _ => rfl)
    refine ⟨m, _, hrun, hmem, ?_⟩
    intro y hy
    have := hext y hy
    simp only [stringMaxRule, decide_eq_false_iff_not, gt_iff_lt, not_lt] at this
    exact this
  · intro xs hne
    obtain ⟨m, l1, hrun, hmem, hext⟩ := pushThenPeek_spec swo_stringMinRule xs hne
      (fun _ _ => rfl)
    refine ⟨m, _, hrun, hmem, ?_⟩
    intro y hy
    have := hext y hy
    simp only [stringMinRule, decide_eq_false_iff_not, not_lt] at this
    exact this

/-- Instance of C13: of "ab", "b", "a" the max-string heap shows "b" (a longer string that
starts lower is smaller). -/
theorem stringHeap_ordering_witness :
    ∃ m h1, pushThenPeek [goString "ab", goString "b", goString "a"]
        (⟨[], stringMaxRule⟩ : Heap GoString)
        = (Except.ok (m, (([goString "ab", goString "b", goString "a"] : List GoString).length
            : Int)), h1) ∧
      m ∈ [goString "ab", goString "b", goString "a"] ∧
      ∀ y ∈ [goString "ab", goString "b", goString "a"], y ≤ m := by
  obtain ⟨h0, hnew, hall⟩ := stringHeap_ordering.1
  rw [stringHeap_true] at hnew
  injection hnew with h1
  subst h1
  exact hall [goString "ab", goString "b", goString "a"] (by simp)

/-! ## `cmp.Compare` on `int` -/

theorem compare_int (a b : Int) :
    (cmp.Compare a b > 0 ↔ a > b) ∧ (cmp.Compare a b < 0 ↔ a < b) := by
  have hna : cmp.isNaN a = false := by simp [cmp.isNaN]
  have hnb : cmp.isNaN b = false := by simp [cmp.isNaN]
  simp only [cmp.Compare, hna, hnb, Bool.false_eq_true, if_false]
  by_cases h1 : a < b
  · simp only [if_pos h1]
    constructor
    · constructor
      · intro h; omega
      · intro h; omega
    · constructor
      · intro _; exact h1
      · intro _; omega
  · simp only [if_neg h1]
    by_cases h2 : a > b
    · simp only [if_pos h2]
      constructor
      · constructor
        · intro _; exact h2
        · intro _; omega
      · constructor
        · intro h; omega
        · intro h; omega
    · simp only [if_neg h2]
      constructor
      · constructor
        · intro h; omega
        · intro h; omega
      · constructor
        · intro h; omega
        · intro h; omega

theorem comparableHeap_int_true :
    (ComparableHeap true : Except Fault (Heap Int)) = Except.ok ⟨[], intMaxRule⟩ := by
  have hrule : (fun a b : Int => decide (cmp.Compare a b > 0)) = intMaxRule := by
    funext a b
    simp only [intMaxRule]
    exact decide_eq_decide.2 (compare_int a b).1
  simp [ComparableHeap, new_eq, hrule]

theorem comparableHeap_int_false :
    (ComparableHeap false : Except Fault (Heap Int)) = Except.ok ⟨[], intMinRule⟩ := by
  have hrule : (fun a b : Int => decide (cmp.Compare a b < 0)) = intMinRule := by
    funext a b
    simp only [intMinRule]
    exact decide_eq_decide.2 (compare_int a b).2
  simp [ComparableHeap, new_eq, hrule]

/-! ## The exported `Push` and `Pop` -/

theorem push_run [GoType T] (h : Heap T) (x : T) (hx : GoType.isNil x = false) :
    Heap.Push (toAny x) h = (Except.ok (), ⟨h.data ++ [x], h.less⟩) := by
  simp only [Heap.Push, run_bind, getData, assertT_toAny hx, setData]

theorem push_run_nil [GoType T] (h : Heap T) (x : T) (hx : GoType.isNil x = true) :
    Heap.Push (toAny x) h = (Except.error Fault.interfaceConversion, h) := by
  simp only [Heap.Push, run_bind, getData, assertT_toAny_nil hx]

theorem pop_run (less : T → T → Bool) (l : List T) (x : T) :
    Heap.Pop (⟨l ++ [x], less⟩ : Heap T) = (Except.ok x, ⟨l, less⟩) := by
  have hcast : len (l ++ [x]) - 1 = ((l.length : Nat) : Int) := by simp [len]
  have hx : (l ++ [x])[l.length]? = some x := by simp
  simp only [Heap.Pop, run_bind, getData, hcast, index_ok hx, setData, Int.toNat_ofNat,
    run_pure]
  simp

/-- C14: `ComparableHeap` uses the natural order with the given polarity. For `T = int` and
every flag `max`, `cmp.Compare(a,b) > 0` exactly when `a > b` and `cmp.Compare(a,b) < 0`
exactly when `a < b`, so the rule of `ComparableHeap[int](max)` agrees with the rule of
`IntHeap(max)` on every pair; both constructors return empty storage, and every sequence of
calls (every computation on the receiver) returns identical results and leaves identical
storage on the two heaps. -/
theorem comparableHeap_int_agrees (max : Bool) :
    (∀ a b : Int, (cmp.Compare a b > 0 ↔ a > b) ∧ (cmp.Compare a b < 0 ↔ a < b)) ∧
    ∃ h1 h2 : Heap Int, ComparableHeap max = Except.ok h1 ∧ IntHeap max = Except.ok h2 ∧
      (∀ a b, h1.less a b = h2.less a b) ∧ h1.data = h2.data ∧
      (∀ cs : List (Call Int), observe cs h1 = observe cs h2) ∧
      (∀ (α : Type) (m : HeapM Int α), (m h1).1 = (m h2).1 ∧ (m h1).2.data = (m h2).2.data) := by
  refine ⟨compare_int, ?_⟩
  cases max with
  | true =>
    exact ⟨_, _, comparableHeap_int_true, intHeap_true, fun _ _ => rfl, rfl, fun _ => rfl,
      fun _ _ => ⟨rfl, rfl⟩⟩
  | false =>
    exact ⟨_, _, comparableHeap_int_false, intHeap_false, fun _ _ => rfl, rfl, fun _ => rfl,
      fun _ _ => ⟨rfl, rfl⟩⟩

/-- C15: `PriorityHeap` is identical to direct construction. For every rule `p`,
`PriorityHeap(p)` returns what `New(p)` returns, an empty heap whose rule is `p`, so every
computation on the receiver behaves identically on both. -/
theorem priorityHeap_eq_new (p : T → T → Bool) :
    PriorityHeap p = New p ∧
    (∃ h0, PriorityHeap p = Except.ok h0 ∧ h0.data = [] ∧ h0.less = p) ∧
    (∀ (α : Type) (m : HeapM T α), onNew (PriorityHeap p) m = onNew (New p) m) :=
  ⟨rfl, ⟨⟨[], p⟩, new_eq p, rfl, rfl⟩, fun _ _ => rfl⟩

/-- C16, the code at the failing input: on the max-heap `[100, 70, 90]` `Peek()` returns the
top element 100, while the exported `Pop()` returns 90, the element in the last slot, and
leaves `[100, 70]`, the top element still stored. -/
theorem exported_pop_returns_last :
    Heap.Peek (⟨[100, 70, 90], intMaxRule⟩ : Heap Int)
      = (Except.ok 100, ⟨[100, 70, 90], intMaxRule⟩) ∧
    Heap.Pop (⟨[100, 70, 90], intMaxRule⟩ : Heap Int)
      = (Except.ok 90, ⟨[100, 70], intMaxRule⟩) ∧
    HeapProperty (⟨[100, 70, 90], intMaxRule⟩ : Heap Int) :=
  ⟨rfl, rfl, by decide⟩

/-- C17 as stated fails: under the strict weak ordering `a > b` the heap `[100]` satisfies the
heap property, the exported `Push(200)` returns with storage `[100, 200]`, and there index 1
outranks its parent; `PushItem(200)` leaves `[200, 100]`. -/
theorem exported_push_breaks_heapProperty :
    StrictWeakOrder intMaxRule ∧
    HeapProperty (⟨[100], intMaxRule⟩ : Heap Int) ∧
    Heap.Push (toAny 200) (⟨[100], intMaxRule⟩ : Heap Int)
      = (Except.ok (), ⟨[100, 200], intMaxRule⟩) ∧
    ¬ HeapProperty (⟨[100, 200], intMaxRule⟩ : Heap Int) ∧
    Heap.PushItem 200 (⟨[100], intMaxRule⟩ : Heap Int)
      = (Except.ok (), ⟨[200, 100], intMaxRule⟩) :=
  ⟨swo_intMaxRule, by decide, rfl, by decide, rfl⟩

/-- C17, amended: for every strict weak ordering rule, every heap satisfying the heap property
and every element `x` other than the nil value of an interface element type, the heap
property holds after `h.PushItem(x)` returns; the exported `h.Push(x)` returns with `x`
appended at the last index and nothing else changed, and the heap property holds after it
exactly when the heap was empty or `x` does not outrank the element at its parent index
`(len-1)/2`. -/
theorem push_appends_pushItem_restores [GoType T] (h : Heap T) (hs : StrictWeakOrder h.less)
    (hp : HeapProperty h) (x : T) (hx : GoType.isNil x = false) :
    (∃ h1, Heap.PushItem x h = (Except.ok (), h1) ∧ h1.less = h.less ∧ HeapProperty h1) ∧
    Heap.Push (toAny x) h = (Except.ok (), ⟨h.data ++ [x], h.less⟩) ∧
    (HeapProperty ⟨h.data ++ [x], h.less⟩ ↔
      (h.data = [] ∨ ∀ p, h.data[(h.data.length - 1) / 2]? = some p → h.less x p = false)) := by
  obtain ⟨l1, hrun, _, hheap⟩ := pushItem_spec h x hx
  refine ⟨⟨⟨l1, h.less⟩, hrun, rfl, hheap hs hp⟩, push_run h x hx, ?_⟩
  have hu := (heapProperty_iff h).1 hp
  rw [heapProperty_iff]
  simp only [List.length_append, List.length_singleton]
  constructor
  · intro hnew
    by_cases he : h.data = []
    · exact Or.inl he
    · right
      intro p hpar
      have hlen : 0 < h.data.length := List.length_pos.2 he
      exact hnew h.data.length (by omega) (by omega) x p (by simp)
        (by rw [List.getElem?_append_left (by omega)]; exact hpar)
  · intro hcond k hk hkn a b ha hb
    by_cases hkl : k < h.data.length
    · rw [List.getElem?_append_left hkl] at ha
      rw [List.getElem?_append_left (by omega)] at hb
      exact hu k hk hkl a b ha hb
    · have hkeq : k = h.data.length := by omega
      subst hkeq
      have hax : a = x := by
        simp at ha
        exact ha.symm
      subst hax
      rw [List.getElem?_append_left (by omega)] at hb
      cases hcond with
      | inl he =>
        rw [he] at hk
        simp at hk
      | inr hc => exact hc b hb

/-- Instance of amended C17: pushing 50 onto the max-heap `[100, 70]` with the exported `Push`
happens to keep the heap property, because 50 does not outrank its parent 100. -/
theorem push_appends_pushItem_restores_witness :
    HeapProperty (⟨[100, 70], intMaxRule⟩ : Heap Int) ∧
    ((∃ h1, Heap.PushItem 50 (⟨[100, 70], intMaxRule⟩ : Heap Int) = (Except.ok (), h1) ∧
        h1.less = intMaxRule ∧ HeapProperty h1) ∧
      Heap.Push (toAny 50) (⟨[100, 70], intMaxRule⟩ : Heap Int)
        = (Except.ok (), ⟨[100, 70] ++ [50], intMaxRule⟩) ∧
      (HeapProperty (⟨[100, 70] ++ [50], intMaxRule⟩ : Heap Int) ↔
        (([100, 70] : List Int) = [] ∨
          ∀ p, ([100, 70] : List Int)[(([100, 70] : List Int).length - 1) / 2]? = some p →
            intMaxRule 50 p = false))) :=
  ⟨by decide,
    push_appends_pushItem_restores ⟨[100, 70], intMaxRule⟩ swo_intMaxRule (by decide) 50 rfl⟩

/-- Element conservation where it holds. For every comparison function, every heap and every
item `x` that is not a nil interface value, `PushItem` returns normally and the multiset of
stored elements afterwards is the multiset before plus `x`; `PopItem` never runs out of loop
bound, and on a non-empty heap it returns normally and the multiset before is the multiset
afterwards plus the returned element; the rule is never changed. -/
theorem element_conservation_no_nil [GoType T] (h : Heap T) (x : T) :
    (GoType.isNil x = false → ∃ h1, Heap.PushItem x h = (Except.ok (), h1) ∧
      h1.less = h.less ∧ (h1.data : Multiset T) = x ::ₘ (h.data : Multiset T)) ∧
    (h.data ≠ [] → ∃ y h1, Heap.PopItem h = (Except.ok y, h1) ∧ h1.less = h.less ∧
      (h.data : Multiset T) = y ::ₘ (h1.data : Multiset T)) ∧
    (Heap.PopItem h).1 ≠ Except.error Fault.outOfFuel ∧
    (Heap.PushItem x h).1 ≠ Except.error Fault.outOfFuel := by
  have hpop : h.data ≠ [] → ∃ y h1, Heap.PopItem h = (Except.ok y, h1) ∧ h1.less = h.less ∧
      (h.data : Multiset T) = y ::ₘ (h1.data : Multiset T) := by
    intro hne
    obtain ⟨r, hr⟩ := head_some_of_ne_nil hne
    obtain ⟨l3, hrun, hperm, _, _⟩ := popItem_spec h r hr
    refine ⟨r, ⟨l3, h.less⟩, hrun, rfl, ?_⟩
    rw [Multiset.cons_coe, Multiset.coe_eq_coe]
    exact (hperm.symm.trans List.perm_append_comm)
  refine ⟨?_, hpop, ?_, ?_⟩
  · intro hx
    obtain ⟨l1, hrun, hperm, _⟩ := pushItem_spec h x hx
    refine ⟨⟨l1, h.less⟩, hrun, rfl, ?_⟩
    rw [Multiset.cons_coe, Multiset.coe_eq_coe]
    exact hperm.trans List.perm_append_comm
  · by_cases hne : h.data = []
    · obtain ⟨l, less⟩ := h
      simp only at hne
      subst hne
      rw [popItem_empty]
      intro hc
      cases hc
    · obtain ⟨y, h1, hrun, _⟩ := hpop hne
      rw [hrun]
      intro hc
      cases hc
  · by_cases hx : GoType.isNil x = true
    · have hrun : Heap.PushItem x h = (Except.error Fault.interfaceConversion, h) :=
        push_nil h x hx
      rw [hrun]
      intro hc
      cases hc
    · obtain ⟨l1, hrun, _, _⟩ := pushItem_spec h x (by simpa using hx)
      rw [hrun]
      intro hc
      cases hc

/-- Example: the rule that always answers true is no ordering at all, and `PopItem` on
`[1, 2, 3]` under it still returns one element and keeps the other two. -/
theorem element_conservation_no_nil_example :
    (Heap.PopItem (⟨[1, 2, 3], fun _ _ => true⟩ : Heap Int)).2.data = [2, 3] ∧
    ∃ y h1, Heap.PopItem (⟨[1, 2, 3], fun _ _ => true⟩ : Heap Int) = (Except.ok y, h1) ∧
      h1.less = (fun _ _ => true) ∧
      (([1, 2, 3] : List Int) : Multiset Int) = y ::ₘ (h1.data : Multiset Int) :=
  ⟨rfl,
    (element_conservation_no_nil (⟨[1, 2, 3], fun _ _ => true⟩ : Heap Int) 0).2.1 (by simp)⟩

/-- C19, the code at the failing input: on a heap over an interface element type holding
`[1]`, `PushItem` of the nil value panics at the assertion `x.(T)` in `Push` and the storage
is `[1]` as before, where the claim has the multiset gain the item. A non-nil item is
added. -/
theorem element_conservation_nil_item :
    Heap.PushItem none (⟨[some 1], tiedRule⟩ : Heap (Option Int))
      = (Except.error Fault.interfaceConversion, ⟨[some 1], tiedRule⟩) ∧
    ((Heap.PushItem none (⟨[some 1], tiedRule⟩ : Heap (Option Int))).2.data : Multiset (Option Int))
      ≠ none ::ₘ (([some 1] : List (Option Int)) : Multiset (Option Int)) ∧
    Heap.PushItem (some 2) (⟨[some 1], tiedRule⟩ : Heap (Option Int))
      = (Except.ok (), ⟨[some 1, some 2], tiedRule⟩) := by
  have hrun : Heap.PushItem none (⟨[some 1], tiedRule⟩ : Heap (Option Int))
      = (Except.error Fault.interfaceConversion, ⟨[some 1], tiedRule⟩) := rfl
  refine ⟨hrun, ?_, rfl⟩
  rw [hrun]
  intro hc
  have hcard := congrArg Multiset.card hc
  simp at hcard

/-- Low-level round trip where it holds. For every heap and every element `x` that is not a
nil interface value, the exported `h.Push(x)` followed by `h.Pop()` returns `x` and leaves
storage (contents and order) and rule exactly as they were; `Push` alone returns with the
rule unchanged, `x` at the last index and every other slot unchanged. -/
theorem push_pop_roundtrip_no_nil [GoType T] (h : Heap T) (x : T)
    (hx : GoType.isNil x = false) :
    pushThenPop (toAny x) h = (Except.ok x, h) ∧
    ∃ h1, Heap.Push (toAny x) h = (Except.ok (), h1) ∧ h1.less = h.less ∧
      h1.data.length = h.data.length + 1 ∧ h1.data[h.data.length]? = some x ∧
      ∀ i, i < h.data.length → h1.data[i]? = h.data[i]? := by
  constructor
  · rw [pushThenPop, bind_ok (push_run h x hx), pop_run]
  · refine ⟨⟨h.data ++ [x], h.less⟩, push_run h x hx, rfl, by simp, by simp, ?_⟩
    intro i hi
    exact List.getElem?_append_left hi

/-- C20, the code at the failing input: on a heap over an interface element type holding
`[1]`, the exported `Push` of the nil value panics at the assertion `x.(T)`; nothing is
appended, `Pop` is never reached, and a `Pop` after recovery returns the old last element 1,
not the pushed value. A non-nil value makes the round trip. -/
theorem push_pop_roundtrip_nil_item :
    Heap.Push (toAny none) (⟨[some 1], tiedRule⟩ : Heap (Option Int))
      = (Except.error Fault.interfaceConversion, ⟨[some 1], tiedRule⟩) ∧
    pushThenPop (toAny none) (⟨[some 1], tiedRule⟩ : Heap (Option Int))
      = (Except.error Fault.interfaceConversion, ⟨[some 1], tiedRule⟩) ∧
    Heap.Pop (Heap.Push (toAny none) (⟨[some 1], tiedRule⟩ : Heap (Option Int))).2
      = (Except.ok (some 1), ⟨[], tiedRule⟩) ∧
    pushThenPop (toAny (some 2)) (⟨[some 1], tiedRule⟩ : Heap (Option Int))
      = (Except.ok (some 2), ⟨[some 1], tiedRule⟩) :=
  ⟨rfl, rfl, rfl, rfl⟩

/-! ## One iteration of the `down` loop -/

theorem downLoop_leaf (i0 : Int) (n fuel i : Nat) (h : Heap T) (hleaf : n ≤ 2 * i + 1) :
    heap.downLoop i0 (n : Int) (fuel + 1) (i : Int) h
      = (Except.ok (decide ((i : Int) > i0)), h) := by
  rw [heap.downLoop]
  have hc : 2 * (i : Int) + 1 ≥ (n : Int) ∨ 2 * (i : Int) + 1 < 0 := Or.inl (by omega)
  simp only [if_pos hc]
  rfl

/-- At a node with two children among the first `n` slots, `down` takes the right child as
candidate when it outranks the left one and the left child otherwise, and swaps node and
candidate when the candidate outranks the node. -/
theorem downLoop_two (less : T → T → Bool) (i0 : Int) (n fuel i : Nat) (l : List T)
    (a c1 c2 : T) (h2 : 2 * i + 2 < n) (ha : l[i]? = some a) (h1 : l[2 * i + 1]? = some c1)
    (hc2 : l[2 * i + 2]? = some c2) :
    heap.downLoop i0 (n : Int) (fuel + 1) (i : Int) ⟨l, less⟩ =
      if less c2 c1 = true then
        (if less c2 a = false then (Except.ok (decide ((i : Int) > i0)), ⟨l, less⟩)
          else heap.downLoop i0 (n : Int) fuel ((2 * i + 2 : Nat) : Int)
            ⟨(l.set i c2).set (2 * i + 2) a, less⟩)
      else
        (if less c1 a = false then (Except.ok (decide ((i : Int) > i0)), ⟨l, less⟩)
          else heap.downLoop i0 (n : Int) fuel ((2 * i + 1 : Nat) : Int)
            ⟨(l.set i c1).set (2 * i + 1) a, less⟩) := by
  rw [heap.downLoop]
  have e1 : 2 * (i : Int) + 1 = ((2 * i + 1 : Nat) : Int) := by push_cast; ring
  have e2 : ((2 * i + 1 : Nat) : Int) + 1 = ((2 * i + 2 : Nat) : Int) := by push_cast; ring
  simp only [e1, e2]
  have hc : ¬ (((2 * i + 1 : Nat) : Int) ≥ (n : Int) ∨ ((2 * i + 1 : Nat) : Int) < 0) := by
    omega
  have hlt2 : ((2 * i + 2 : Nat) : Int) < (n : Int) := by exact_mod_cast h2
  rw [if_neg hc, if_pos hlt2, bind_ok (Less_ok hc2 h1)]
  by_cases hr : less c2 c1 = true
  · simp only [hr, if_true]
    rw [bind_ok (Less_ok hc2 ha)]
    by_cases hlt : less c2 a = false
    · rw [if_pos hlt, if_pos hlt]
      rfl
    · rw [if_neg hlt, if_neg hlt, bind_ok (Swap_ok ha hc2)]
  · have hr1 : less c2 c1 = false := by simpa using hr
    simp only [hr1, Bool.false_eq_true, if_false]
    rw [bind_ok (Less_ok h1 ha)]
    by_cases hlt : less c1 a = false
    · rw [if_pos hlt, if_pos hlt]
      rfl
    · rw [if_neg hlt, if_neg hlt, bind_ok (Swap_ok ha h1)]

/-- At a node whose only child among the first `n` slots is the left one, that child is the
candidate. -/
theorem downLoop_one (less : T → T → Bool) (i0 : Int) (n fuel i : Nat) (l : List T)
    (a c1 : T) (h1n : 2 * i + 1 < n) (h2n : ¬ 2 * i + 2 < n) (ha : l[i]? = some a)
    (h1 : l[2 * i + 1]? = some c1) :
    heap.downLoop i0 (n : Int) (fuel + 1) (i : Int) ⟨l, less⟩ =
      if less c1 a = false then (Except.ok (decide ((i : Int) > i0)), ⟨l, less⟩)
      else heap.downLoop i0 (n : Int) fuel ((2 * i + 1 : Nat) : Int)
        ⟨(l.set i c1).set (2 * i + 1) a, less⟩ := by
  rw [heap.downLoop]
  have e1 : 2 * (i : Int) + 1 = ((2 * i + 1 : Nat) : Int) := by push_cast; ring
  have e2 : ((2 * i + 1 : Nat) : Int) + 1 = ((2 * i + 2 : Nat) : Int) := by push_cast; ring
  simp only [e1, e2]
  have hc : ¬ (((2 * i + 1 : Nat) : Int) ≥ (n : Int) ∨ ((2 * i + 1 : Nat) : Int) < 0) := by
    omega
  have hlt2 : ¬ ((2 * i + 2 : Nat) : Int) < (n : Int) := by omega
  rw [if_neg hc, if_neg hlt2, bind_ok (run_pure false _)]
  simp only [Bool.false_eq_true, if_false]
  rw [bind_ok (Less_ok h1 ha)]
  by_cases hlt : less c1 a = false
  · rw [if_pos hlt, if_pos hlt]
    rfl
  · rw [if_neg hlt, if_neg hlt, bind_ok (Swap_ok ha h1)]

/-- The `down` loop started at `i` never writes to a slot before `i`. -/
theorem downLoop_below (less : T → T → Bool) (i0 : Int) (n : Nat) :
    ∀ (fuel : Nat) (l : List T) (i : Nat) (r : Bool) (h1 : Heap T), n ≤ l.length →
    heap.downLoop i0 (n : Int) fuel (i : Int) ⟨l, less⟩ = (Except.ok r, h1) →
    ∀ k, k < i → h1.data[k]? = l[k]? := by
  intro fuel
  induction fuel with
  | zero =>
    intro l i r h1 _ hrun
    rw [heap.downLoop] at hrun
    have := congrArg Prod.fst hrun
    simp [raise] at this
  | succ fuel ih =>
    intro l i r h1 hnl hrun k hk
    have stay : ∀ b : Bool, ((Except.ok b, (⟨l, less⟩ : Heap T)) : Except Fault Bool × Heap T)
        = (Except.ok r, h1) → h1.data[k]? = l[k]? := by
      intro b hb
      have := congrArg Prod.snd hb
      simp only at this
      rw [← this]
    have move : ∀ (j : Nat) (a c : T), i < j → l[i]? = some a → l[j]? = some c →
        heap.downLoop i0 (n : Int) fuel (j : Int) ⟨(l.set i c).set j a, less⟩
          = (Except.ok r, h1) → h1.data[k]? = l[k]? := by
      intro j a c hij ha hc hrec
      rw [ih ((l.set i c).set j a) j r h1 (by simpa using hnl) hrec k (by omega),
        swap_get ha hc, if_neg (by omega), if_neg (by omega)]
    by_cases hleaf : n ≤ 2 * i + 1
    · rw [downLoop_leaf i0 n fuel i _ hleaf] at hrun
      exact stay _ hrun
    · have ha : l[i]? = some l[i] := List.getElem?_eq_getElem (by omega)
      have hc1 : l[2 * i + 1]? = some l[2 * i + 1] := List.getElem?_eq_getElem (by omega)
      by_cases h2 : 2 * i + 2 < n
      · have hc2 : l[2 * i + 2]? = some l[2 * i + 2] := List.getElem?_eq_getElem (by omega)
        rw [downLoop_two less i0 n fuel i l _ _ _ h2 ha hc1 hc2] at hrun
        split_ifs at hrun
        · exact stay _ hrun
        · exact move _ _ _ (by omega) ha hc2 hrun
        · exact stay _ hrun
        · exact move _ _ _ (by omega) ha hc1 hrun
      · rw [downLoop_one less i0 n fuel i l _ _ (by omega) h2 ha hc1] at hrun
        split_ifs at hrun
        · exact stay _ hrun
        · exact move _ _ _ (by omega) ha hc1 hrun

/-- Go's `heap.Pop` in terms of what its `down` call leaves: the result is the first
`len - 1` slots of that, and the old root is returned. -/
theorem pop_eq (less : T → T → Bool) (l l2 : List T) (r z : T) (b : Bool)
    (hr : l[0]? = some r) (hz : l[l.length - 1]? = some z)
    (hrun : heap.downLoop 0 ((l.length - 1 : Nat) : Int) (l.length + 1) 0
      ⟨(l.set 0 z).set (l.length - 1) r, less⟩ = (Except.ok b, ⟨l2, less⟩))
    (hlen2 : l2.length = l.length) (hlast : l2[l.length - 1]? = some r) :
    heap.Pop ⟨l, less⟩ = (Except.ok r, ⟨l2.take (l.length - 1), less⟩) := by
  have hl : 0 < l.length := (List.getElem?_eq_some.1 hr).1
  have hcast : len l - 1 = ((l.length - 1 : Nat) : Int) := by simp [len]; omega
  have hcast2 : len l2 - 1 = ((l.length - 1 : Nat) : Int) := by simp [len, hlen2]; omega
  have hsw : Heap.Swap ((0 : Nat) : Int) ((l.length - 1 : Nat) : Int) ⟨l, less⟩ = _ :=
    Swap_ok hr hz
  simp only [Nat.cast_zero] at hsw
  simp only [heap.Pop, Heap.Len, run_bind, getData, run_pure, hcast, hsw, heap.down,
    List.length_set, hrun, Heap.Pop, hcast2, index_ok hlast, setData, Int.toNat_ofNat]

/-- C18: the sift-down tie-break is left-child preference. At a node with two children among
the slots `down` works on, the right child is the swap candidate exactly when
`less(right, left)` holds and the left child (index `2i+1`) otherwise, and node and candidate
are swapped exactly when `less(candidate, node)` holds. Consequently, for every heap of at
least 3 elements whose last element is outranked by both children of the root and whose two
root children are tied, `PopItem` returns the old root and leaves the old left child at
index 0. -/
theorem siftDown_left_preference :
    (∀ (T : Type) (less : T → T → Bool) (i0 : Int) (n fuel i : Nat) (l : List T) (a c1 c2 : T),
      2 * i + 2 < n → l[i]? = some a → l[2 * i + 1]? = some c1 → l[2 * i + 2]? = some c2 →
      heap.downLoop i0 (n : Int) (fuel + 1) (i : Int) ⟨l, less⟩ =
        if less c2 c1 = true then
          (if less c2 a = false then (Except.ok (decide ((i : Int) > i0)), ⟨l, less⟩)
            else heap.downLoop i0 (n : Int) fuel ((2 * i + 2 : Nat) : Int)
              ⟨(l.set i c2).set (2 * i + 2) a, less⟩)
        else
          (if less c1 a = false then (Except.ok (decide ((i : Int) > i0)), ⟨l, less⟩)
            else heap.downLoop i0 (n : Int) fuel ((2 * i + 1 : Nat) : Int)
              ⟨(l.set i c1).set (2 * i + 1) a, less⟩)) ∧
    (∀ (T : Type) (less : T → T → Bool) (l : List T) (r c1 c2 z : T), 3 ≤ l.length →
      l[0]? = some r → l[1]? = some c1 → l[2]? = some c2 → l[l.length - 1]? = some z →
      less c1 z = true → less c2 z = true → less c1 c2 = false → less c2 c1 = false →
      ∃ h1, Heap.PopItem ⟨l, less⟩ = (Except.ok r, h1) ∧ h1.data[0]? = some c1) := by
  constructor
  · intro T less i0 n fuel i l a c1 c2 h2 ha h1 hc2
    exact downLoop_two less i0 n fuel i l a c1 c2 h2 ha h1 hc2
  · intro T less l r c1 c2 z hlen hr hc1 hc2 hz h1z _ h12 h21
    have hlen4 : 4 ≤ l.length := by
      by_contra hcon
      have h3 : l.length - 1 = 2 := by omega
      rw [h3, hc2] at hz
      simp at hz
      subst hz
      rw [h12] at h1z
      exact Bool.false_ne_true h1z
    obtain ⟨l2, b, hrun, hperm, hfix, _⟩ := downLoop_spec less 0 (l.length - 1)
      (l.length + 1) ((l.set 0 z).set (l.length - 1) r) 0 (by simp) (by omega) (by omega)
    simp only [Nat.cast_zero] at hrun
    have hlen2 : l2.length = l.length := by simpa using hperm.length_eq
    have hlast : l2[l.length - 1]? = some r := by
      rw [hfix _ (le_refl _), swap_get hr hz, if_pos rfl]
    have hpop := pop_eq less l l2 r z b hr hz hrun hlen2 hlast
    have g0 : ((l.set 0 z).set (l.length - 1) r)[0]? = some z := by
      rw [swap_get hr hz, if_neg (by omega), if_pos rfl]
    have g1 : ((l.set 0 z).set (l.length - 1) r)[2 * 0 + 1]? = some c1 := by
      rw [swap_get hr hz, if_neg (by omega), if_neg (by omega)]
      exact hc1
    have g2 : ((l.set 0 z).set (l.length - 1) r)[2 * 0 + 2]? = some c2 := by
      rw [swap_get hr hz, if_neg (by omega), if_neg (by omega)]
      exact hc2
    have hstep := downLoop_two less 0 (l.length - 1) l.length 0 _ z c1 c2 (by omega) g0 g1 g2
    simp only [Nat.cast_zero] at hstep
    rw [hrun, h21, h1z] at hstep
    simp only [Bool.false_eq_true, if_false] at hstep
    have hroot := downLoop_below less 0 (l.length - 1) l.length _ (2 * 0 + 1) b ⟨l2, less⟩
      (by simp) hstep.symm 0 (by omega)
    simp only at hroot
    rw [swap_get g0 g1, if_neg (by omega), if_pos rfl] at hroot
    refine ⟨⟨l2.take (l.length - 1), less⟩, hpop, ?_⟩
    simp only [List.getElem?_take]
    rw [if_pos (by omega)]
    exact hroot

/-- Instance of C18: Left and Right are tied at price 90 under the root and both outrank the
last entry; after `PopItem` Left is the root. -/
theorem siftDown_left_preference_witness :
    (Heap.PopItem (⟨[⟨"Top", 100⟩, ⟨"Left", 90⟩, ⟨"Right", 90⟩, ⟨"Last", 10⟩], priceRule⟩
        : Heap PriceEntry)).2.data = [⟨"Left", 90⟩, ⟨"Last", 10⟩, ⟨"Right", 90⟩] ∧
    ∃ h1, Heap.PopItem (⟨[⟨"Top", 100⟩, ⟨"Left", 90⟩, ⟨"Right", 90⟩, ⟨"Last", 10⟩], priceRule⟩
        : Heap PriceEntry) = (Except.ok ⟨"Top", 100⟩, h1) ∧
      h1.data[0]? = some ⟨"Left", 90⟩ :=
  ⟨by decide!,
    siftDown_left_preference.2 PriceEntry priceRule
      [⟨"Top", 100⟩, ⟨"Left", 90⟩, ⟨"Right", 90⟩, ⟨"Last", 10⟩]
      ⟨"Top", 100⟩ ⟨"Left", 90⟩ ⟨"Right", 90⟩ ⟨"Last", 10⟩
      (by decide) rfl rfl rfl rfl (by decide) (by decide) (by decide) (by decide)⟩

end GenericHeap
